import Mathlib

/-!
The stack reconciliation engine of savaki/deploy.

A shallow embedding of `internal/amazon/stack` (`change.go`, `stack.go`,
`options.go`, `manager.go`, `observe.go`) and of `parseImage` in
`internal/command/docker.go`, and the properties of the change calculator, of
the reconciliation manager, of the event observer and of the parser of images.

Modelling conventions.
* Go slices are lists; a nil slice and an empty slice are both `[]`.
* Go strings are `String`; `Operation` and `cloudformation.StackStatus` are
  string types in the source and stay strings here.
* `cloudformation.StackSummary.StackName` is a `*string` that the source
  dereferences unconditionally (`change.go` 35, 52, 58; `manager.go` 225); it is
  taken as always present and modelled as a `String`.
* Remote calls are modelled by explicit state passing over a `World` that
  records every call made on the remote API, the answers coming from a
  responder that may depend on the whole history of calls.
* The loops that page through the remote API take fuel; the observer, which
  runs until it is cancelled, is a step function on its state.
* Log output and wall-clock time are not modelled.
-/

set_option autoImplicit false

namespace Deploy

/-! ## Data model (`stack.go`) -/

/-- The type `cloudformation.Tag`: two optional strings. -/
structure Tag where
  Key : Option String
  Value : Option String
deriving DecidableEq, Repr

/-- The type `cloudformation.Parameter`, restricted to its key and value. -/
structure Parameter where
  ParameterKey : Option String
  ParameterValue : Option String
deriving DecidableEq, Repr

/-- The type `Stack` of `stack.go`, with the two further fields that `manager.go`
reads from it (`Capabilities`, `Parameters`, lines 112-113 and 262-263). -/
structure Stack where
  Name : String := ""
  Tags : List Tag := []
  TemplateBody : String := ""
  Capabilities : List String := []
  Parameters : List Parameter := []
deriving DecidableEq, Repr

/-- The string type `Operation` of `stack.go`. -/
abbrev Operation := String

/-- The constant `Insert` of `stack.go`. -/
def Insert : Operation := "insert"

/-- The constant `Update` of `stack.go`. -/
def Update : Operation := "update"

/-- The constant `Delete` of `stack.go`. -/
def Delete : Operation := "delete"

/-- The type `Change` of `stack.go`. -/
structure Change where
  Operation : Operation
  Stack : Stack
deriving DecidableEq, Repr

/-- The string type `cloudformation.StackStatus`. -/
abbrev StackStatus := String

/-- The constant `cloudformation.StackStatusDeleteFailed`. -/
def StackStatusDeleteFailed : StackStatus := "DELETE_FAILED"

/-- The constant `cloudformation.StackStatusDeleteComplete`. -/
def StackStatusDeleteComplete : StackStatus := "DELETE_COMPLETE"

/-- The type `cloudformation.StackSummary`, restricted to the two fields the
engine reads. -/
structure StackSummary where
  StackName : String
  StackStatus : StackStatus := ""
deriving DecidableEq, Repr

/-! ## Change calculator (`change.go`) -/

/-- The variable `deletedStatus` of `change.go`. -/
def deletedStatus : List StackStatus :=
  [StackStatusDeleteFailed, StackStatusDeleteComplete]

/-- The function `containsStatus` of `change.go`: a linear scan. -/
def containsStatus (ss : List StackStatus) (want : StackStatus) : Bool :=
  match ss with
  | [] => false
  | s :: rest => if s = want then true else containsStatus rest want

/-- The function `exclude` of `change.go`: the summaries whose status is in
`statuses` are skipped, the others appended in order. -/
def exclude (item : List StackSummary) (statuses : List StackStatus) : List StackSummary :=
  item.foldl
    (fun ss item => if containsStatus statuses item.StackStatus then ss else ss ++ [item])
    []

/-- The inner loop of the first pass of `CalculateChanges` (lines 34-42): true
when the scan of `got` reaches a summary named `w.Name`. -/
def matchesGot (got : List StackSummary) (w : Stack) : Bool :=
  match got with
  | [] => false
  | g :: rest => if w.Name = g.StackName then true else matchesGot rest w

/-- The inner loop of the second pass of `CalculateChanges` (lines 51-55): true
when the scan of `want` reaches a stack named `g.StackName`. -/
def matchesWant (want : List Stack) (g : StackSummary) : Bool :=
  match want with
  | [] => false
  | w :: rest => if g.StackName = w.Name then true else matchesWant rest g

/-- The function `CalculateChanges` of `change.go`. -/
def CalculateChanges (got : List StackSummary) (want : List Stack) : List Change :=
  let got := exclude got deletedStatus
  let changes : List Change := []
  let changes := want.foldl
    (fun changes w =>
      if matchesGot got w then changes ++ [{ Operation := Update, Stack := w }]
      else changes ++ [{ Operation := Insert, Stack := w }])
    changes
  let changes := got.foldl
    (fun changes g =>
      if matchesWant want g then changes
      else changes ++ [{ Operation := Delete, Stack := { Name := g.StackName } }])
    changes
  changes

/-! ## Test helpers (`change_test.go`) -/

/-- The helper `filter` of `change_test.go`: the stacks of the changes with
operation `op`. -/
def filter (changes : List Change) (op : Operation) : List Stack :=
  changes.foldl (fun got change => if change.Operation = op then got ++ [change.Stack] else got) []

/-- The helper `stackNames` of `change_test.go`. -/
def stackNames (ss : List Stack) : List String :=
  ss.foldl (fun items s => items ++ [s.Name]) []

/-- The helper `makeStacks` of `change_test.go`. -/
def makeStacks (ss : List String) : List Stack :=
  ss.foldl (fun items s => items ++ [{ Name := s }]) []

/-- The helper `makeStackSummaries` of `change_test.go`. -/
def makeStackSummaries (ss : List String) : List StackSummary :=
  ss.foldl (fun items s => items ++ [{ StackName := s }]) []

/-! ## Errors -/

/-- Go error values, as far as the engine inspects them: the sentinel
`context.Canceled`, an `awserr.Error` with its code and message, any other
error, an error wrapped by `fmt.Errorf` with the verb `%w` (`text` is what
the format puts before the wrapped error), and an `awserr.Error` built over an
original error that the chain goes on with (`awserr.New(code, message, orig)`). -/
inductive GoError where
  | Canceled
  | aws (code message : String)
  | other (text : String)
  | wrapped (text : String) (err : GoError)
  | awsCaused (code message : String) (orig : GoError)
deriving DecidableEq, Repr

/-- The test `errors.Is(err, context.Canceled)` on a non-nil error: the chain of
wrapped errors is followed. -/
def GoError.isCanceled : GoError → Bool
  | .Canceled => true
  | .aws _ _ => false
  | .other _ => false
  | .wrapped _ err => err.isCanceled
  | .awsCaused _ _ orig => orig.isCanceled

/-- The call `errors.As(err, &ae)` for `ae` an `awserr.Error`: the code and
message of the first such error in the chain. -/
def GoError.asAws : GoError → Option (String × String)
  | .Canceled => none
  | .aws code message => some (code, message)
  | .other _ => none
  | .wrapped _ err => err.asAws
  | .awsCaused code message _ => some (code, message)

/-- The error `inner` is `err` itself or is reached from `err` by unwrapping. -/
def GoError.wraps : GoError → GoError → Bool
  | .wrapped text err, inner =>
      if GoError.wrapped text err = inner then true else err.wraps inner
  | .awsCaused code message orig, inner =>
      if GoError.awsCaused code message orig = inner then true else orig.wraps inner
  | err, inner => if err = inner then true else false

/-- The constant `errResourceNotReady` of `manager.go`. -/
def errResourceNotReady : String := "ResourceNotReady"

/-- The constant `errValidationError` of `manager.go`. -/
def errValidationError : String := "ValidationError"

/-- The function `strings.Contains` of the Go library. -/
def strings.Contains (s substr : String) : Bool :=
  s.toList.tails.any (fun t => substr.toList.isPrefixOf t)

/-- The function `strings.HasPrefix` of the Go library. -/
def strings.HasPrefix (s pre : String) : Bool :=
  pre.toList.isPrefixOf s.toList

/-- The function `strings.TrimRight` of the Go library: the trailing characters
that are in `cutset` are removed. -/
def strings.TrimRight (s cutset : String) : String :=
  String.mk (s.toList.reverse.dropWhile (fun c => cutset.toList.contains c)).reverse

/-- The loop of `filepath.Ext` of the Go library, from the last character down:
`rev` is what is left of the reversed path, `acc` the characters passed. -/
def filepath.extLoop (rev : List Char) (acc : List Char) : List Char :=
  match rev with
  | [] => []
  | c :: rest =>
      if c = '/' then []
      else if c = '.' then c :: acc
      else filepath.extLoop rest (c :: acc)

/-- The function `filepath.Ext` of the Go library (with `/` as separator): the
suffix of the last element of the path that starts at its last dot. -/
def filepath.Ext (path : String) : String :=
  String.mk (filepath.extLoop path.toList.reverse [])

/-- The function `filepath.Base` of the Go library (with `/` as separator and no
volume name): the last element of the path, trailing separators removed. -/
def filepath.Base (path : String) : String :=
  if path = "" then "."
  else
    let stripped := path.toList.reverse.dropWhile (fun c => c = '/')
    let last := stripped.takeWhile (fun c => c ≠ '/')
    if last = [] then "/" else String.mk last.reverse

/-- The method `Error` of an error value: the text of a wrapped error is the
text of the format followed by the text of the error it wraps. -/
def GoError.Error : GoError → String
  | .Canceled => "context canceled"
  | .aws code message => code ++ ": " ++ message
  | .other text => text
  | .wrapped text err => text ++ err.Error
  | .awsCaused code message orig => code ++ ": " ++ message ++ "\ncaused by: " ++ orig.Error

/-! ## Options (`options.go`) -/

/-- The type `Options` of `options.go`; the map of parameters is a list of
pairs. -/
structure Options where
  DryRun : Bool := false
  Parameters : List (String × String) := []
  FormatName : String → String
  Prefix : String := ""
  Tags : List Tag := []

/-- The type `Option` of `options.go`, a function updating the options. -/
abbrev OptionFn := Options → Options

/-- The function `defaultNameFormatter` of `options.go`. -/
def defaultNameFormatter (s : String) : String := s

/-- The function `WithDryRun` of `options.go`. -/
def WithDryRun (dryRun : Bool) : OptionFn :=
  fun o => { o with DryRun := dryRun }

/-- The function `WithTags` of `options.go`. -/
def WithTags (tags : List Tag) : OptionFn :=
  fun o => { o with Tags := o.Tags ++ tags }

/-- The function `WithNameFormatter` of `options.go`; `none` is the nil
function. -/
def WithNameFormatter (fn : Option (String → String)) : OptionFn :=
  fun o =>
    match fn with
    | none => { o with FormatName := defaultNameFormatter }
    | some fn => { o with FormatName := fn }

/-- The function `WithPrefix` of `options.go`. -/
def WithPrefix (pre : String) : OptionFn :=
  let pre := strings.TrimRight pre "-" ++ "-"
  fun o => { o with Prefix := pre }

/-- The function `buildOptions` of `options.go`. -/
def buildOptions (opts : List OptionFn) : Options :=
  opts.foldl (fun options opt => opt options) { FormatName := defaultNameFormatter }

/-! ## Loading a stack (`stack.go`) -/

/-- The function `makeStackName` of `stack.go`: the slice
`name[0 : len(name)-len(ext)]` drops the extension, which is a suffix of the
base name. -/
def makeStackName (filename : String) : String :=
  let ext := filepath.Ext filename
  let name := filepath.Base filename
  String.mk (name.toList.take (name.length - ext.length))

/-- The function `Load` of `stack.go`: `body` is what `ioutil.ReadAll` gets from
the reader, the data or an error. The result is the pair of return values. -/
def Load (filename : String) (body : Except GoError String) (opts : List OptionFn) :
    Stack × Option GoError :=
  let options := buildOptions opts
  let name := makeStackName filename
  match body with
  | .error err =>
      ({}, some (.wrapped ("unable to read template from file, " ++ filename ++ ": ") err))
  | .ok data =>
      ({ Name := options.Prefix ++ options.FormatName name
         TemplateBody := data
         Tags := options.Tags }, none)

/-! ## The remote API -/

/-- The type `cloudformation.CreateStackInput`, with the fields `Create` sets. -/
structure CreateStackInput where
  Capabilities : List String
  Parameters : List Parameter
  StackName : String
  Tags : List Tag
  TemplateBody : String
deriving DecidableEq, Repr

/-- The type `cloudformation.UpdateStackInput`, with the fields `Update` sets. -/
structure UpdateStackInput where
  Capabilities : List String
  Parameters : List Parameter
  StackName : String
  Tags : List Tag
  TemplateBody : String
deriving DecidableEq, Repr

/-- The type `cloudformation.ListStacksOutput`. -/
structure ListStacksOutput where
  StackSummaries : List StackSummary
  NextToken : Option String
deriving DecidableEq, Repr

/-- The type `cloudformation.Export`. -/
structure Export where
  ExportingStackId : Option String
  Name : Option String
  Value : Option String
deriving DecidableEq, Repr

/-- The type `cloudformation.ListExportsOutput`. -/
structure ListExportsOutput where
  Exports : List Export
  NextToken : Option String
deriving DecidableEq, Repr

/-- The type `cloudformation.StackEvent`, with the fields the observer reads.
The identifier and the timestamp are pointers that the source dereferences
unconditionally; they are taken as present. Time is a number of nanoseconds. -/
structure StackEvent where
  EventId : String
  Timestamp : Int
  LogicalResourceId : Option String := none
  ResourceType : Option String := none
  ResourceStatus : String := ""
  ResourceStatusReason : Option String := none
deriving DecidableEq, Repr

/-- The type `cloudformation.DescribeStackEventsOutput`. -/
structure DescribeStackEventsOutput where
  StackEvents : List StackEvent
  NextToken : Option String
deriving DecidableEq, Repr

/-- What the engine does on the remote API: the three mutating requests (built
and sent), the wait calls (their `DescribeStacksInput` holds only the stack
name), the start of the observer goroutine `observeEvents` on a stack name, and
the reading requests with the stack name or the continuation token they
carry. -/
inductive ApiCall where
  | CreateStackRequest (input : CreateStackInput)
  | UpdateStackRequest (input : UpdateStackInput)
  | DeleteStackRequest (StackName : String)
  | observeEvents (stackName : String)
  | WaitUntilStackCreateComplete (StackName : String)
  | WaitUntilStackUpdateComplete (StackName : String)
  | WaitUntilStackDeleteComplete (StackName : String)
  | GetTemplateRequest (StackName : String)
  | ListStacksRequest (NextToken : Option String)
  | ListExportsRequest (NextToken : Option String)
  | DescribeStackEventsRequest (StackName : String) (NextToken : Option String)
deriving DecidableEq, Repr

/-- The state of the outside world: the calls made so far, oldest first. -/
structure World where
  calls : List ApiCall := []
deriving DecidableEq, Repr

/-- The remote API as the engine sees it (`cloudformationiface.ClientAPI`): for
the mutating requests and the wait calls, the error (`none` for nil) with which
a call returns given the calls made before it; for the reading requests, the
output or the error, given the calls made before and what the request carries.
The template body of a `GetTemplate` response is taken as present. -/
structure ClientAPI where
  respond : List ApiCall → ApiCall → Option GoError
  GetTemplate : List ApiCall → String → Except GoError String :=
    fun _ _ => .error (.other "not served")
  ListStacks : List ApiCall → Option String → Except GoError ListStacksOutput :=
    fun _ _ => .error (.other "not served")
  ListExports : List ApiCall → Option String → Except GoError ListExportsOutput :=
    fun _ _ => .error (.other "not served")
  DescribeStackEvents : List ApiCall → String → Option String
      → Except GoError DescribeStackEventsOutput :=
    fun _ _ _ => .error (.other "not served")

/-- A call on the remote API: its answer, and the world with the call recorded. -/
def ClientAPI.call (api : ClientAPI) (c : ApiCall) (w : World) : Option GoError × World :=
  (api.respond w.calls c, { w with calls := w.calls ++ [c] })

/-- The request `GetTemplateRequest(&input).Send(ctx)`: its answer, and the world
with the call recorded. -/
def ClientAPI.getTemplate (api : ClientAPI) (StackName : String) (w : World) :
    Except GoError String × World :=
  (api.GetTemplate w.calls StackName,
    { w with calls := w.calls ++ [.GetTemplateRequest StackName] })

/-- The request `ListStacksRequest(&input).Send(ctx)`. -/
def ClientAPI.listStacks (api : ClientAPI) (NextToken : Option String) (w : World) :
    Except GoError ListStacksOutput × World :=
  (api.ListStacks w.calls NextToken,
    { w with calls := w.calls ++ [.ListStacksRequest NextToken] })

/-- The request `ListExportsRequest(&input).Send(ctx)`. -/
def ClientAPI.listExports (api : ClientAPI) (NextToken : Option String) (w : World) :
    Except GoError ListExportsOutput × World :=
  (api.ListExports w.calls NextToken,
    { w with calls := w.calls ++ [.ListExportsRequest NextToken] })

/-- The request `DescribeStackEventsRequest(&input).Send(ctx)`. -/
def ClientAPI.describeStackEvents (api : ClientAPI) (StackName : String)
    (NextToken : Option String) (w : World) :
    Except GoError DescribeStackEventsOutput × World :=
  (api.DescribeStackEvents w.calls StackName NextToken,
    { w with calls := w.calls ++ [.DescribeStackEventsRequest StackName NextToken] })

/-- The statement `go func() { defer cancel(); observeEvents(ctx, m.api, name) }()`:
the start of the observer is recorded. -/
def World.spawn (w : World) (c : ApiCall) : World :=
  { w with calls := w.calls ++ [c] }

/-! ## Reconciliation manager (`manager.go`) -/

/-- The type `Manager` of `manager.go`. -/
structure Manager where
  api : ClientAPI
  options : Options

/-- The function `New` of `manager.go`. -/
def New (api : ClientAPI) (opts : List OptionFn) : Manager :=
  { api := api, options := buildOptions opts }

/-- The deferred function of `Create`, `Update` and `Delete` that rewrites the
named result: `if errors.Is(err, context.Canceled) { err = nil }`. -/
def hideCanceled (err : Option GoError) : Option GoError :=
  match err with
  | none => none
  | some e => if e.isCanceled then none else some e

/-- The body of `Manager.Create` (lines 106-136), before the deferred rewrite
of the result. -/
def Manager.createBody (m : Manager) (stack : Stack) (w : World) : Option GoError × World :=
  if m.options.DryRun then (none, w)
  else
    let input : CreateStackInput :=
      { Capabilities := stack.Capabilities
        Parameters := stack.Parameters
        StackName := stack.Name
        Tags := m.options.Tags ++ stack.Tags
        TemplateBody := stack.TemplateBody }
    match m.api.call (.CreateStackRequest input) w with
    | (some err, w) =>
        (some (.wrapped ("unable to create stack, " ++ stack.Name ++ ": ") err), w)
    | (none, w) =>
        let w := w.spawn (.observeEvents stack.Name)
        match m.api.call (.WaitUntilStackCreateComplete stack.Name) w with
        | (some err, w) =>
            (some (.wrapped ("failed while waiting for complete to finish for stack, "
              ++ stack.Name ++ ": ") err), w)
        | (none, w) => (none, w)

/-- The method `Manager.Create` of `manager.go`. -/
def Manager.Create (m : Manager) (stack : Stack) (w : World) : Option GoError × World :=
  let r := m.createBody stack w
  (hideCanceled r.1, r.2)

/-- The body of `Manager.Delete` (lines 156-183), before the deferred rewrite
of the result. -/
def Manager.deleteBody (m : Manager) (stackName : String) (w : World) : Option GoError × World :=
  if m.options.DryRun then (none, w)
  else
    match m.api.call (.DeleteStackRequest stackName) w with
    | (some err, w) =>
        (some (.wrapped ("failed to delete stack, " ++ stackName ++ ": ") err), w)
    | (none, w) =>
        let w := w.spawn (.observeEvents stackName)
        match m.api.call (.WaitUntilStackUpdateComplete stackName) w with
        | (some err, w) =>
            match err.asAws with
            | some (code, _) =>
                if code = errResourceNotReady then (none, w)
                else (some (.wrapped ("failed while waiting for delete to finish for stack, "
                  ++ stackName ++ ": ") err), w)
            | none =>
                (some (.wrapped ("failed while waiting for delete to finish for stack, "
                  ++ stackName ++ ": ") err), w)
        | (none, w) => (none, w)

/-- The method `Manager.Delete` of `manager.go`. -/
def Manager.Delete (m : Manager) (stackName : String) (w : World) : Option GoError × World :=
  let r := m.deleteBody stackName w
  (hideCanceled r.1, r.2)

/-- The body of `Manager.Update` (lines 256-293), before the deferred rewrite
of the result. -/
def Manager.updateBody (m : Manager) (stack : Stack) (w : World) : Option GoError × World :=
  if m.options.DryRun then (none, w)
  else
    let input : UpdateStackInput :=
      { Capabilities := stack.Capabilities
        Parameters := stack.Parameters
        StackName := stack.Name
        Tags := m.options.Tags ++ stack.Tags
        TemplateBody := stack.TemplateBody }
    match m.api.call (.UpdateStackRequest input) w with
    | (some err, w) =>
        match err.asAws with
        | some (code, message) =>
            if code = errValidationError
                && strings.Contains message "No updates are to be performed." then (none, w)
            else (some (.wrapped ("unable to update stack, " ++ stack.Name ++ ": ") err), w)
        | none => (some (.wrapped ("unable to update stack, " ++ stack.Name ++ ": ") err), w)
    | (none, w) =>
        let w := w.spawn (.observeEvents stack.Name)
        match m.api.call (.WaitUntilStackUpdateComplete stack.Name) w with
        | (some err, w) =>
            (some (.wrapped ("failed while waiting for update to finish for stack, "
              ++ stack.Name ++ ": ") err), w)
        | (none, w) => (none, w)

/-- The method `Manager.Update` of `manager.go`. -/
def Manager.Update (m : Manager) (stack : Stack) (w : World) : Option GoError × World :=
  let r := m.updateBody stack w
  (hideCanceled r.1, r.2)

/-- The first loop of `Manager.Apply` (lines 61-70), over the changes taken from
the last index down to 0: `rev` is what is left of the reversed list. -/
def Manager.applyDeletes (m : Manager) (rev : List Change) (w : World) : Option GoError × World :=
  match rev with
  | [] => (none, w)
  | change :: rest =>
      if change.Operation ≠ Deploy.Delete then m.applyDeletes rest w
      else
        match m.Delete change.Stack.Name w with
        | (some err, w) => (some (.wrapped "failed to apply changes: " err), w)
        | (none, w) => m.applyDeletes rest w

/-- The second loop of `Manager.Apply` (lines 73-84). -/
def Manager.applyUpserts (m : Manager) (changes : List Change) (w : World) : Option GoError × World :=
  match changes with
  | [] => (none, w)
  | change :: rest =>
      if change.Operation = Deploy.Insert then
        match m.Create change.Stack w with
        | (some err, w) => (some (.wrapped "failed to apply changes: " err), w)
        | (none, w) => m.applyUpserts rest w
      else if change.Operation = Deploy.Update then
        match m.Update change.Stack w with
        | (some err, w) => (some (.wrapped "failed to apply changes: " err), w)
        | (none, w) => m.applyUpserts rest w
      else m.applyUpserts rest w

/-- The method `Manager.Apply` of `manager.go`. -/
def Manager.Apply (m : Manager) (changes : List Change) (w : World) : Option GoError × World :=
  match m.applyDeletes changes.reverse w with
  | (some err, w) => (some err, w)
  | (none, w) => m.applyUpserts changes w

/-- The method `Manager.Upsert` of `manager.go`. The parser `gf.ParseYAML` of
goformation is a parameter, and `reflect.DeepEqual` on two parsed templates is
their equality. -/
def Manager.Upsert {τ : Type} [DecidableEq τ] (m : Manager)
    (ParseYAML : String → Except GoError τ) (stack : Stack) (w : World) :
    Option GoError × World :=
  match m.api.getTemplate stack.Name w with
  | (.error err, w) =>
      match err.asAws with
      | some (code, message) =>
          if code = errValidationError then
            if strings.Contains message "does not exist" then m.Create stack w
            else (some (.wrapped ("unable to upsert stack, " ++ stack.Name ++ ": ") err), w)
          else (some (.wrapped ("unable to upsert stack, " ++ stack.Name ++ ": ") err), w)
      | none => (some (.wrapped ("unable to upsert stack, " ++ stack.Name ++ ": ") err), w)
  | (.ok TemplateBody, w) =>
      match ParseYAML TemplateBody with
      | .error err =>
          (some (.wrapped ("unable to upsert stack: unable to parse current template, "
            ++ stack.Name ++ ": ") err), w)
      | .ok got =>
          match ParseYAML stack.TemplateBody with
          | .error err =>
              (some (.wrapped ("unable to upsert stack: unable to parse new template, "
                ++ stack.Name ++ ": ") err), w)
          | .ok want =>
              if ¬ (got = want) then m.Update stack w
              else (none, w)

/-- The loop of `hasPrefix` (lines 334-338). -/
def hasPrefixLoop (got : String) (prefixes : List String) : Bool :=
  match prefixes with
  | [] => false
  | p :: rest => if strings.HasPrefix got p then true else hasPrefixLoop got rest

/-- The function `hasPrefix` of `manager.go`. -/
def hasPrefix (got : String) (prefixes : List String) : Bool :=
  if prefixes.length = 0 then true
  else hasPrefixLoop got prefixes

/-- The loop of `Manager.List` (lines 217-234): `fuel` bounds the number of
pages requested, and `none` is returned when it is used up. A result is the
pair of return values and the world. -/
def Manager.listLoop (m : Manager) (fuel : Nat) (token : Option String)
    (summaries : List StackSummary) (w : World) :
    Option ((List StackSummary × Option GoError) × World) :=
  match fuel with
  | 0 => none
  | fuel + 1 =>
      match m.api.listStacks token w with
      | (.error err, w) => some (([], some (.wrapped "failed to list stacks: " err)), w)
      | (.ok resp, w) =>
          let summaries := resp.StackSummaries.foldl
            (fun summaries s =>
              if hasPrefix s.StackName [m.options.Prefix] then summaries ++ [s] else summaries)
            summaries
          let token := resp.NextToken
          match token with
          | none => some ((summaries, none), w)
          | some _ => m.listLoop fuel token summaries w

/-- The loop of `Manager.Exports` (lines 189-201), with fuel as in `listLoop`. -/
def Manager.exportsLoop (m : Manager) (fuel : Nat) (token : Option String)
    (exports : List Export) (w : World) : Option ((List Export × Option GoError) × World) :=
  match fuel with
  | 0 => none
  | fuel + 1 =>
      match m.api.listExports token w with
      | (.error err, w) =>
          some (([], some (.wrapped "unable to list cloudformation exports: " err)), w)
      | (.ok resp, w) =>
          let exports := exports ++ resp.Exports
          let token := resp.NextToken
          match token with
          | none => some ((exports, none), w)
          | some _ => m.exportsLoop fuel token exports w

/-- The method `Manager.Exports` of `manager.go`. -/
def Manager.Exports (m : Manager) (fuel : Nat) (w : World) :
    Option ((List Export × Option GoError) × World) :=
  m.exportsLoop fuel none [] w

/-- The input that `Create` builds (lines 111-117). -/
def Manager.createStackInput (m : Manager) (stack : Stack) : CreateStackInput :=
  { Capabilities := stack.Capabilities
    Parameters := stack.Parameters
    StackName := stack.Name
    Tags := m.options.Tags ++ stack.Tags
    TemplateBody := stack.TemplateBody }

/-- The input that `Update` builds (lines 261-267). -/
def Manager.updateStackInput (m : Manager) (stack : Stack) : UpdateStackInput :=
  { Capabilities := stack.Capabilities
    Parameters := stack.Parameters
    StackName := stack.Name
    Tags := m.options.Tags ++ stack.Tags
    TemplateBody := stack.TemplateBody }

/-! ## The order of application, as the specification words it -/

/-- One invocation by `Apply` of an operation of the manager. -/
inductive Invocation where
  | Delete (stackName : String)
  | Create (stack : Stack)
  | Update (stack : Stack)
deriving DecidableEq, Repr

/-- The invocation `op` made on the manager `m`. -/
def Manager.invoke (m : Manager) (op : Invocation) (w : World) : Option GoError × World :=
  match op with
  | .Delete stackName => m.Delete stackName w
  | .Create stack => m.Create stack w
  | .Update stack => m.Update stack w

/-- The invocation that a change asks for: Delete by name for a Delete change,
Create for an Insert change, Update for an Update change, nothing for a change
with any other operation. -/
def invocationOf (c : Change) : Option Invocation :=
  if c.Operation = Delete then some (.Delete c.Stack.Name)
  else if c.Operation = Insert then some (.Create c.Stack)
  else if c.Operation = Update then some (.Update c.Stack)
  else none

/-- The order the specification gives: Delete for every Delete change taken in
reverse list order, then, in list order, Create for every Insert change and
Update for every Update change. -/
def applyOrder (changes : List Change) : List Invocation :=
  (changes.filter (fun c => decide (c.Operation = Delete))).reverse.map
      (fun c => Invocation.Delete c.Stack.Name)
    ++ changes.filterMap (fun c =>
        if c.Operation = Insert then some (Invocation.Create c.Stack)
        else if c.Operation = Update then some (Invocation.Update c.Stack)
        else none)

/-- The world after the invocations `ops` are made one after the other. -/
def Manager.invokeAll (m : Manager) (ops : List Invocation) (w : World) : World :=
  ops.foldl (fun w op => (m.invoke op w).2) w

/-- Every invocation of `ops`, made in order from the world `w`, returns nil. -/
def Manager.allSucceed (m : Manager) (ops : List Invocation) (w : World) : Bool :=
  match ops with
  | [] => true
  | op :: rest =>
      match m.invoke op w with
      | (none, w) => m.allSucceed rest w
      | (some _, _) => false

/-- The invocations `ops` made in order up to the first that returns an error,
which is returned wrapped as `Apply` wraps it. -/
def Manager.invokeUntilError (m : Manager) (ops : List Invocation) (w : World) :
    Option GoError × World :=
  match ops with
  | [] => (none, w)
  | op :: rest =>
      match m.invoke op w with
      | (some err, w) => (some (.wrapped "failed to apply changes: " err), w)
      | (none, w) => m.invokeUntilError rest w

/-- A remote API on which every call succeeds. -/
def alwaysNil : ClientAPI := { respond := fun _ _ => none }

/-- A remote API on which every call fails. -/
def alwaysFails : ClientAPI := { respond := fun _ _ => some (.other "remote failure") }

/-- A remote API on which the delete request of the stack `x` fails and every
other call succeeds. -/
def failsOnDeleteX : ClientAPI :=
  { respond := fun _ c =>
      if c = .DeleteStackRequest "x" then some (.aws "AccessDenied" "not allowed") else none }

/-- The method `Manager.List` of `manager.go`. It comes after the other methods
because its name hides the type of lists inside the namespace of the manager. -/
def Manager.List (m : Manager) (fuel : Nat) (w : World) :
    Option ((List StackSummary × Option GoError) × World) :=
  m.listLoop fuel none [] w

/-- A remote API on which the calls selected by `p` return the error `err` and
every other mutating or wait call succeeds. -/
def failsOn (p : ApiCall → Bool) (err : GoError) : ClientAPI :=
  { respond := fun _ c => if p c then some err else none }

/-- The call is a create-stack request. -/
def isCreateStackRequest : ApiCall → Bool
  | .CreateStackRequest _ => true
  | _ => false

/-- The call is an update-stack request. -/
def isUpdateStackRequest : ApiCall → Bool
  | .UpdateStackRequest _ => true
  | _ => false

/-- The call is a delete-stack request. -/
def isDeleteStackRequest : ApiCall → Bool
  | .DeleteStackRequest _ => true
  | _ => false

/-- The call is a wait for the completion of an update. -/
def isWaitUntilStackUpdateComplete : ApiCall → Bool
  | .WaitUntilStackUpdateComplete _ => true
  | _ => false

/-- The error with which a request returns when its context is cancelled: an
`awserr.Error` with the code `RequestCanceled` over `context.Canceled`. -/
def requestCanceled : GoError :=
  .awsCaused "RequestCanceled" "request context canceled" .Canceled

/-- A remote API that serves `body` as the deployed template of every stack and
on which every mutating or wait call succeeds. -/
def servesTemplate (body : String) : ClientAPI :=
  { respond := fun _ _ => none, GetTemplate := fun _ _ => .ok body }

/-- A remote API on which no stack exists yet and every mutating or wait call
succeeds. -/
def noStackYet : ClientAPI :=
  { respond := fun _ _ => none
    GetTemplate := fun _ name =>
      .error (.aws "ValidationError" ("Stack with id " ++ name ++ " does not exist")) }

/-- A parser of templates for the examples: the characters of the body that are
not blanks. -/
def parseNoBlanks (body : String) : Except GoError (List Char) :=
  .ok (body.toList.filter (fun c => c ≠ ' '))

/-! ## Event observer (`observe.go`) -/

/-- The function `aws.StringValue` of the SDK. -/
def aws.StringValue (v : Option String) : String :=
  match v with
  | some s => s
  | none => ""

/-- The function `isErrShown` of `observe.go`: the type assertion looks at the
error itself, not at what it wraps. -/
def isErrShown (err : GoError) : Bool :=
  match err with
  | .aws code _ =>
      if code = "RequestCanceled" ∨ code = errValidationError then false else true
  | .awsCaused code _ _ =>
      if code = "RequestCanceled" ∨ code = errValidationError then false else true
  | _ => true

/-- The variable `completeResourceStatuses` of `observe.go`. -/
def completeResourceStatuses : List String :=
  ["CREATE_COMPLETE", "CREATE_FAILED", "UPDATE_COMPLETE", "UPDATE_FAILED",
   "DELETE_COMPLETE", "DELETE_FAILED"]

/-- The function `containsResourceStatus` of `observe.go`. -/
def containsResourceStatus (event : StackEvent) (ss : List String) : Bool :=
  match ss with
  | [] => false
  | s :: rest => if s = event.ResourceStatus then true else containsResourceStatus event rest

/-- The function `isComplete` of `observe.go`. -/
def isComplete (stackName : String) (event : StackEvent) : Bool :=
  decide (aws.StringValue event.LogicalResourceId = stackName)
    && containsResourceStatus event completeResourceStatuses

/-- The colours of the package `color` with which the observer prints. -/
inductive Color where
  | Red
  | Yellow
  | Green
  | Blue
deriving DecidableEq, Repr

/-- The colour in which `observeEvents` prints an event with the status `status`
(lines 107-115). -/
def colorOf (status : String) : Color :=
  if strings.Contains status "FAILED" || strings.Contains status "DELETE" then .Red
  else if strings.Contains status "UPDATE" then .Yellow
  else if strings.Contains status "CREATE" then .Green
  else .Blue

/-- What the observer prints: the line of an event in a colour, or the line that
reports a failed request. The layout of the text is not modelled. -/
inductive Printed where
  | event (color : Color) (event : StackEvent)
  | failure (stackName : String) (err : GoError)
deriving DecidableEq, Repr

/-- The loop over the events of a page (lines 85-96): `seen` is the set of the
identifiers seen, `events` the events accumulated so far. -/
def scanEvents (now : Int) (page : List StackEvent) (seen : List String)
    (events : List StackEvent) : List String × List StackEvent :=
  match page with
  | [] => (seen, events)
  | event :: rest =>
      if event.Timestamp < now then (seen, events)
      else if event.EventId ∈ seen then scanEvents now rest seen events
      else scanEvents now rest (event.EventId :: seen) (events ++ [event])

/-- The loop that prints the accumulated events from the last to the first
(lines 98-118), `rev` being what is left of the reversed list: the lines
printed, and whether the loop returned from `observeEvents`. -/
def printEvents (stackName : String) (iter : Nat) (rev : List StackEvent)
    (printed : List Printed) : List Printed × Bool :=
  match rev with
  | [] => (printed, false)
  | event :: rest =>
      let printed := printed ++ [.event (colorOf event.ResourceStatus) event]
      if decide (iter > 0) && isComplete stackName event then (printed, true)
      else printEvents stackName iter rest printed

/-- Where the observer stands: at the `select` that opens an iteration of the
outer loop, about to request a page with a token, or returned. -/
inductive ObserverPc where
  | tick
  | page (token : Option String)
  | returned
deriving DecidableEq, Repr

/-- The state of a run of `observeEvents`: the variables `iter` and `seen`, the
lines printed, the number of `select` statements passed, and the calls made. -/
structure Observer where
  pc : ObserverPc := .tick
  iter : Nat := 0
  seen : List String := []
  printed : List Printed := []
  selects : Nat := 0
  world : World := {}
deriving DecidableEq, Repr

/-- The context of the observer: whether `ctx.Done()` is what the `select`
number `n` of the run receives from. -/
abbrev Context := Nat → Bool

/-- One step of `observeEvents`: the `select` that opens an iteration of the
outer loop, or one turn of the loop over the pages (lines 66-124). -/
def observeStep (ctx : Context) (api : ClientAPI) (stackName : String) (now : Int)
    (st : Observer) : Observer :=
  match st.pc with
  | .returned => st
  | .tick =>
      if ctx st.selects then { st with pc := .returned, selects := st.selects + 1 }
      else { st with pc := .page none, selects := st.selects + 1 }
  | .page token =>
      match api.describeStackEvents stackName token st.world with
      | (.error err, world) =>
          let printed :=
            if isErrShown err then st.printed ++ [.failure stackName err] else st.printed
          if ctx st.selects then
            { st with pc := .returned, printed := printed, selects := st.selects + 1,
                      world := world }
          else
            { st with pc := .tick, iter := st.iter + 1, printed := printed,
                      selects := st.selects + 1, world := world }
      | (.ok resp, world) =>
          let scanned := scanEvents now resp.StackEvents st.seen []
          let shown := printEvents stackName st.iter scanned.2.reverse st.printed
          if shown.2 then
            { st with pc := .returned, seen := scanned.1, printed := shown.1, world := world }
          else
            match resp.NextToken with
            | none =>
                { st with pc := .tick, iter := st.iter + 1, seen := scanned.1,
                          printed := shown.1, world := world }
            | some token =>
                { st with pc := .page (some token), seen := scanned.1, printed := shown.1,
                          world := world }

/-- The observer after `fuel` steps from the state `st`. -/
def observeRun (ctx : Context) (api : ClientAPI) (stackName : String) (now : Int) :
    Nat → Observer → Observer
  | 0, st => st
  | fuel + 1, st => observeRun ctx api stackName now fuel (observeStep ctx api stackName now st)

/-- The function `observeEvents` of `observe.go`, started at the time `start` (in
nanoseconds) and run for `fuel` steps: the lower time bound is twelve seconds
before the start. -/
def observeEvents (ctx : Context) (api : ClientAPI) (stackName : String) (start : Int)
    (fuel : Nat) : Observer :=
  observeRun ctx api stackName (start - 12 * 1000000000) fuel {}

/-- The identifiers of the events printed. -/
def printedIds (printed : List Printed) : List String :=
  printed.filterMap (fun line =>
    match line with
    | .event _ event => some event.EventId
    | .failure _ _ => none)

/-- A context that is never cancelled. -/
def neverDone : Context := fun _ => false

/-- A remote API whose feed of events is one page holding `events`, at every
request. -/
def feeds (events : List StackEvent) : ClientAPI :=
  { respond := fun _ _ => none
    DescribeStackEvents := fun _ _ _ => .ok { StackEvents := events, NextToken := none } }

/-- The invariant of the observer: the identifiers of the events printed are
pairwise distinct, and each of them is in the set of the identifiers seen. -/
def ObserverInv (st : Observer) : Prop :=
  (printedIds st.printed).Nodup ∧ ∀ id ∈ printedIds st.printed, id ∈ st.seen

/-- The line that the observer prints for an event. -/
def lineOf (event : StackEvent) : Printed :=
  .event (colorOf event.ResourceStatus) event

/-- An event of the examples: the stack `s` itself is created, at the time 100. -/
def createdEvent : StackEvent :=
  { EventId := "e1", Timestamp := 100, LogicalResourceId := some "s",
    ResourceStatus := "CREATE_COMPLETE" }

/-! ## Pages served by the remote API -/

/-- From the history `hist` on, the remote API answers the list-stacks requests
with the pages `pages`: the first page to the request with `token`, every
further page to the request with the token of the page before it; the last
page is the first whose continuation token is nil. -/
def servesStackPages (api : ClientAPI) (hist : List ApiCall) (token : Option String) :
    List ListStacksOutput → Prop
  | [] => False
  | [p] => api.ListStacks hist token = .ok p ∧ p.NextToken = none
  | p :: q :: rest =>
      api.ListStacks hist token = .ok p ∧ p.NextToken ≠ none
        ∧ servesStackPages api (hist ++ [.ListStacksRequest token]) p.NextToken (q :: rest)

/-- The same for the list-exports requests. -/
def servesExportPages (api : ClientAPI) (hist : List ApiCall) (token : Option String) :
    List ListExportsOutput → Prop
  | [] => False
  | [p] => api.ListExports hist token = .ok p ∧ p.NextToken = none
  | p :: q :: rest =>
      api.ListExports hist token = .ok p ∧ p.NextToken ≠ none
        ∧ servesExportPages api (hist ++ [.ListExportsRequest token]) p.NextToken (q :: rest)

/-- From the history `hist` on, the remote API answers the list-exports requests
with the pages `pages`, each with a continuation token, and the request that
follows them fails with the error `err`. -/
def failsAfterExportPages (api : ClientAPI) (hist : List ApiCall) (token : Option String)
    (err : GoError) : List ListExportsOutput → Prop
  | [] => api.ListExports hist token = .error err
  | p :: rest =>
      api.ListExports hist token = .ok p ∧ p.NextToken ≠ none
        ∧ failsAfterExportPages api (hist ++ [.ListExportsRequest token]) p.NextToken err rest

/-- A remote API that serves the stacks in two pages. -/
def twoStackPages : ClientAPI :=
  { respond := fun _ _ => none
    ListStacks := fun _ token =>
      match token with
      | none =>
          .ok { StackSummaries := [{ StackName := "dev-a" }, { StackName := "prod-b" }],
                NextToken := some "t1" }
      | some _ => .ok { StackSummaries := [{ StackName := "dev-c" }], NextToken := none } }

/-- A remote API that serves the exports in two pages. -/
def twoExportPages : ClientAPI :=
  { respond := fun _ _ => none
    ListExports := fun _ token =>
      match token with
      | none =>
          .ok { Exports := [{ ExportingStackId := none, Name := some "a", Value := some "1" }],
                NextToken := some "t1" }
      | some _ =>
          .ok { Exports := [{ ExportingStackId := none, Name := some "b", Value := some "2" }],
                NextToken := none } }

/-- A remote API that serves one page of exports and fails on the next. -/
def secondExportPageFails : ClientAPI :=
  { respond := fun _ _ => none
    ListExports := fun _ token =>
      match token with
      | none =>
          .ok { Exports := [{ ExportingStackId := none, Name := some "a", Value := some "1" }],
                NextToken := some "t1" }
      | some _ => .error (.aws "Throttling" "Rate exceeded") }

/-- The names of the stacks for which a delete-stack request is among `calls`. -/
def deleteRequests (calls : List ApiCall) : List String :=
  calls.filterMap (fun c =>
    match c with
    | .DeleteStackRequest name => some name
    | _ => none)

/-- The events of `events` not yet seen when the scan reaches them: an event is
kept when its identifier is neither in `seen` nor the identifier of an event
kept before it. -/
def notYetSeen (seen : List String) (events : List StackEvent) : List StackEvent :=
  match events with
  | [] => []
  | e :: rest =>
      if e.EventId ∈ seen then notYetSeen seen rest
      else e :: notYetSeen (e.EventId :: seen) rest

/-- The longest leading run of a page whose timestamps are all not before the
lower time bound `now`. -/
def leadingRun (now : Int) (page : List StackEvent) : List StackEvent :=
  page.takeWhile (fun e => decide (now ≤ e.Timestamp))

/-- An event of the examples, older than the lower time bound of a run started
at the time 13000000000. -/
def oldEvent : StackEvent :=
  { EventId := "e0", Timestamp := 5, LogicalResourceId := some "s",
    ResourceStatus := "UPDATE_COMPLETE" }

/-- An event of the examples, positioned after an old one on its page. -/
def lateEvent : StackEvent :=
  { EventId := "e2", Timestamp := 2000000000, LogicalResourceId := some "s",
    ResourceStatus := "UPDATE_COMPLETE" }

/-- An event of the examples, not before the lower time bound. -/
def recentEvent : StackEvent :=
  { EventId := "e1", Timestamp := 1500000000, LogicalResourceId := some "r",
    ResourceStatus := "CREATE_IN_PROGRESS" }

/-! ## Slices of tags -/

/-- A Go slice of tags together with its backing array: `cells` are the cells of
the array from the first element of the slice up to its capacity, `len` is the
length of the slice. -/
structure TagSlice where
  cells : List Tag
  len : Nat
deriving DecidableEq, Repr

/-- The elements of a slice. -/
def TagSlice.elems (s : TagSlice) : List Tag :=
  s.cells.take s.len

/-- The full slice expression `s[0:len(s):len(s)]`: the same cells, the capacity
cut down to the length. -/
def TagSlice.full (s : TagSlice) : TagSlice :=
  { cells := s.cells.take s.len, len := s.len }

/-- The built-in `append(s, xs...)`: the slice it returns, and the cells of `s`
after the call. When the capacity suffices the elements are written in place
after the length; otherwise a new array is allocated and the cells of `s` are
left as they are. -/
def TagSlice.append (s : TagSlice) (xs : List Tag) : TagSlice × List Tag :=
  if s.len + xs.length ≤ s.cells.length then
    let cells := s.cells.take s.len ++ xs ++ s.cells.drop (s.len + xs.length)
    ({ cells := cells, len := s.len + xs.length }, cells)
  else
    ({ cells := s.cells.take s.len ++ xs, len := s.len + xs.length }, s.cells)

/-- The expression `append(tags[0:len(tags):len(tags)], stackTags...)` of `Create`
and `Update` (lines 115 and 265) on the slice `tags` of the options: the slice
of the request, and the cells of `tags` after the call. -/
def requestTags (tags : TagSlice) (stackTags : List Tag) : TagSlice × List Tag :=
  let r := tags.full.append stackTags
  (r.1, r.2 ++ tags.cells.drop tags.len)

/-- A tag of the examples. -/
def tagOf (key value : String) : Tag :=
  { Key := some key, Value := some value }

/-! ## Docker images (`command/docker.go`) -/

/-- The type `Image` of `docker.go`. -/
structure Image where
  AccountID : String := ""
  Region : String := ""
  RepositoryName : String := ""
  Tag : String := ""
deriving DecidableEq, Repr

/-- The method `Image.String` of `docker.go`: the format
`%v.dkr.ecr.%v.amazonaws.com/%v:%v`. -/
def Image.String (i : Image) : String :=
  i.AccountID ++ ".dkr.ecr." ++ i.Region ++ ".amazonaws.com/" ++ i.RepositoryName ++ ":" ++ i.Tag

/-- The character classes that occur in the expression `reImage`: `\d`, the dot
(any character but a newline), a negated set of one character, and a literal
character. -/
inductive CharClass where
  | digit
  | anyChar
  | notChar (c : Char)
  | lit (c : Char)
deriving DecidableEq, Repr

/-- A character is in a class. -/
def CharClass.accepts (cls : CharClass) (c : Char) : Bool :=
  match cls with
  | .digit => c.isDigit
  | .anyChar => decide (c ≠ Char.ofNat 10)
  | .notChar x => decide (c ≠ x)
  | .lit x => decide (c = x)

/-- The items of a regular expression that is a sequence anchored at both ends:
one character of a class, or a capturing group made of the greedy repetition of
a class, `min` times at least. -/
inductive ReItem where
  | one (cls : CharClass)
  | group (cls : CharClass) (min : Nat)
deriving DecidableEq, Repr

/-- A greedy group followed by the rest of the expression `k`, on the text `s`:
the group takes `n` characters if the rest then matches, and failing that one
character less, down to `min`. The captures are returned, the one of the group
first. -/
def greedyGroup (min : Nat) (k : List Char → Option (List String)) (s : List Char) :
    Nat → Option (List String)
  | 0 =>
      if 0 < min then none
      else
        match k s with
        | some caps => some ("" :: caps)
        | none => none
  | n + 1 =>
      if n + 1 < min then none
      else
        match k (s.drop (n + 1)) with
        | some caps => some (String.mk (s.take (n + 1)) :: caps)
        | none => greedyGroup min k s n

/-- The match of a sequence of items against a whole text, with the order of
preference of the package `regexp` (leftmost-first: a greedy repetition takes
as many characters as the rest of the match allows): the captures of the
groups, or `none` when the text does not match. -/
def matchItems : List ReItem → List Char → Option (List String)
  | [] => fun s => if s = [] then some [] else none
  | .one cls :: rest => fun s =>
      match s with
      | [] => none
      | c :: cs => if cls.accepts c then matchItems rest cs else none
  | .group cls min :: rest => fun s =>
      greedyGroup min (matchItems rest) s (s.takeWhile cls.accepts).length

/-- The items that match the characters of `text` literally. -/
def literal (text : String) : List ReItem :=
  text.toList.map (fun c => ReItem.one (.lit c))

/-- The variable `reImage` of `docker.go`, the expression
`^(\d+).dkr.ecr.([^.]+).amazonaws.com/([^:]+):(.*)$`; its dots are not
escaped. -/
def reImage : List ReItem :=
  [.group .digit 1, .one .anyChar] ++ literal "dkr" ++ [.one .anyChar] ++ literal "ecr"
    ++ [.one .anyChar, .group (.notChar '.') 1, .one .anyChar] ++ literal "amazonaws"
    ++ [.one .anyChar] ++ literal "com/" ++ [.group (.notChar ':') 1] ++ literal ":"
    ++ [.group .anyChar 0]

/-- The call `reImage.FindStringSubmatch(s)`: the text matched and the captures
of the four groups, or nil. -/
def FindStringSubmatch (re : List ReItem) (s : String) : List String :=
  match matchItems re s.toList with
  | some caps => s :: caps
  | none => []

/-- The function `parseImage` of `docker.go`; the result is the pair of return
values. -/
def parseImage (s : String) : Image × Option GoError :=
  let found := FindStringSubmatch reImage s
  if found.length ≠ 5 then ({}, some (.other ("invalid docker image, " ++ s)))
  else
    ({ AccountID := found.getD 1 ""
       Region := found.getD 2 ""
       RepositoryName := found.getD 3 ""
       Tag := found.getD 4 "" }, none)

/-! ## Reading the loops as list operations -/

/-- An observed summary is dropped by `CalculateChanges` when its status is one
of the two deleted statuses. -/
def isDeleted (g : StackSummary) : Bool :=
  decide (g.StackStatus = StackStatusDeleteFailed ∨ g.StackStatus = StackStatusDeleteComplete)

/-- A change is an Insert or an Update. -/
def isUpsert (c : Change) : Bool :=
  decide (c.Operation = Insert ∨ c.Operation = Update)

/-- A change is a Delete. -/
def isDelete (c : Change) : Bool :=
  decide (c.Operation = Delete)

/-- The Insert/Update change that `CalculateChanges` emits for the desired stack
`w` against the retained summaries `got`. -/
def upsertOf (got : List StackSummary) (w : Stack) : Change :=
  { Operation := if w.Name ∈ got.map (fun g => g.StackName) then Update else Insert, Stack := w }

/-- The Delete change that `CalculateChanges` emits for a retained summary. -/
def deleteOf (g : StackSummary) : Change :=
  { Operation := Delete
    Stack := { Name := g.StackName, Tags := [], TemplateBody := "", Capabilities := [],
               Parameters := [] } }

theorem foldl_append_ite {α β : Type} (p : α → Bool) (f : α → β) (l : List α) (init : List β) :
    l.foldl (fun acc x => if p x then acc else acc ++ [f x]) init
      = init ++ (l.filter (fun x => !p x)).map f := by
  induction l generalizing init with
  | nil => simp
  | cons x xs ih =>
    rw [List.foldl_cons, ih]
    cases hp : p x <;> simp [hp]

theorem foldl_append_map {α β : Type} (f : α → β) (l : List α) (init : List β) :
    l.foldl (fun acc x => acc ++ [f x]) init = init ++ l.map f := by
  induction l generalizing init with
  | nil => simp
  | cons x xs ih => rw [List.foldl_cons, ih]; simp

theorem containsStatus_deletedStatus (s : StackStatus) :
    containsStatus deletedStatus s
      = decide (s = StackStatusDeleteFailed ∨ s = StackStatusDeleteComplete) := by
  simp only [deletedStatus, containsStatus]
  by_cases h1 : StackStatusDeleteFailed = s
  · simp [h1]
  · by_cases h2 : StackStatusDeleteComplete = s
    · simp [h2]
    · have h1' : ¬ s = StackStatusDeleteFailed := fun h => h1 h.symm
      have h2' : ¬ s = StackStatusDeleteComplete := fun h => h2 h.symm
      simp [h1, h2, h1', h2']

theorem exclude_deletedStatus (O : List StackSummary) :
    exclude O deletedStatus = O.filter (fun g => !isDeleted g) := by
  unfold exclude
  have h := foldl_append_ite (fun g : StackSummary => containsStatus deletedStatus g.StackStatus)
    (fun g => g) O []
  rw [h]
  have hp : (fun x : StackSummary => !containsStatus deletedStatus x.StackStatus)
      = (fun g => !isDeleted g) := by
    funext g
    simp [isDeleted, containsStatus_deletedStatus]
  rw [hp]
  simp

theorem matchesGot_iff (got : List StackSummary) (w : Stack) :
    matchesGot got w = true ↔ w.Name ∈ got.map (fun g => g.StackName) := by
  induction got with
  | nil => simp [matchesGot]
  | cons g rest ih =>
    unfold matchesGot
    by_cases h : w.Name = g.StackName
    · simp [h]
    · simp [h, ih]

theorem matchesWant_iff (want : List Stack) (g : StackSummary) :
    matchesWant want g = true ↔ g.StackName ∈ want.map (fun w => w.Name) := by
  induction want with
  | nil => simp [matchesWant]
  | cons w rest ih =>
    unfold matchesWant
    by_cases h : g.StackName = w.Name
    · simp [h]
    · simp [h, ih]

/-- The two loops of `CalculateChanges` as a map over the desired stacks followed
by a filtered map over the retained summaries. -/
theorem CalculateChanges_eq (O : List StackSummary) (D : List Stack) :
    CalculateChanges O D
      = D.map (upsertOf (exclude O deletedStatus))
        ++ ((exclude O deletedStatus).filter
              (fun g => decide (g.StackName ∉ D.map (fun w => w.Name)))).map deleteOf := by
  unfold CalculateChanges
  simp only []
  have h1 : ∀ (got : List StackSummary) (init : List Change),
      D.foldl (fun changes w =>
        if matchesGot got w then changes ++ [{ Operation := Update, Stack := w }]
        else changes ++ [{ Operation := Insert, Stack := w }]) init
      = init ++ D.map (upsertOf got) := by
    intro got init
    rw [← foldl_append_map]
    congr 1
    funext changes w
    by_cases h : matchesGot got w = true
    · have h' := (matchesGot_iff got w).1 h
      simp [h, upsertOf, h']
    · have h' : ¬ w.Name ∈ got.map (fun g => g.StackName) := fun hh => h ((matchesGot_iff got w).2 hh)
      simp [h, upsertOf, h']
  rw [h1]
  have h2 := foldl_append_ite (fun g : StackSummary => matchesWant D g) deleteOf
    (exclude O deletedStatus) ([] ++ D.map (upsertOf (exclude O deletedStatus)))
  simp only [deleteOf] at h2
  rw [h2]
  simp only [List.nil_append, deleteOf]
  congr 3
  funext g
  by_cases h : matchesWant D g = true
  · have h' := (matchesWant_iff D g).1 h
    simp [h, h']
  · have h' : ¬ g.StackName ∈ D.map (fun w => w.Name) := fun hh => h ((matchesWant_iff D g).2 hh)
    simp [h, h']

theorem isUpsert_upsertOf (got : List StackSummary) (w : Stack) :
    isUpsert (upsertOf got w) = true := by
  unfold isUpsert upsertOf
  by_cases h : w.Name ∈ got.map (fun g => g.StackName) <;> simp [h]

theorem isDelete_upsertOf (got : List StackSummary) (w : Stack) :
    isDelete (upsertOf got w) = false := by
  unfold isDelete upsertOf
  by_cases h : w.Name ∈ got.map (fun g => g.StackName) <;> simp [h] <;> decide

theorem isDelete_deleteOf (g : StackSummary) : isDelete (deleteOf g) = true := by
  simp [isDelete, deleteOf]

theorem isUpsert_deleteOf (g : StackSummary) : isUpsert (deleteOf g) = false := by
  simp [isUpsert, deleteOf]; decide

theorem filter_isUpsert_changes (got kept : List StackSummary) (D : List Stack) :
    (D.map (upsertOf got) ++ kept.map deleteOf).filter isUpsert = D.map (upsertOf got) := by
  rw [List.filter_append]
  have h1 : (D.map (upsertOf got)).filter isUpsert = D.map (upsertOf got) := by
    apply List.filter_eq_self.2
    intro c hc
    obtain ⟨w, _, rfl⟩ := List.mem_map.1 hc
    exact isUpsert_upsertOf got w
  have h2 : (kept.map deleteOf).filter isUpsert = [] := by
    apply List.filter_eq_nil_iff.2
    intro c hc
    obtain ⟨g, _, rfl⟩ := List.mem_map.1 hc
    simp [isUpsert_deleteOf]
  rw [h1, h2, List.append_nil]

theorem filter_isDelete_changes (got kept : List StackSummary) (D : List Stack) :
    (D.map (upsertOf got) ++ kept.map deleteOf).filter isDelete = kept.map deleteOf := by
  rw [List.filter_append]
  have h1 : (D.map (upsertOf got)).filter isDelete = [] := by
    apply List.filter_eq_nil_iff.2
    intro c hc
    obtain ⟨w, _, rfl⟩ := List.mem_map.1 hc
    simp [isDelete_upsertOf]
  have h2 : (kept.map deleteOf).filter isDelete = kept.map deleteOf := by
    apply List.filter_eq_self.2
    intro c hc
    obtain ⟨g, _, rfl⟩ := List.mem_map.1 hc
    exact isDelete_deleteOf g
  rw [h1, h2, List.nil_append]

theorem length_filter_not {α : Type} (p : α → Bool) (l : List α) :
    (l.filter (fun x => !p x)).length = l.length - (l.filter p).length := by
  induction l with
  | nil => simp
  | cons x xs ih =>
    have hle : (xs.filter p).length ≤ xs.length := List.length_filter_le p xs
    cases hp : p x
    · simp [List.filter_cons, hp, ih]; omega
    · simp [List.filter_cons, hp, ih]

/-- Claim C1. The Insert/Update changes of `CalculateChanges O D` are, in order,
one change per desired stack in desired-list order, each carrying the desired
stack unchanged; the change is an Update when a summary retained by the
deleted-status filter has the name of the stack, an Insert otherwise. On
D = [a,b,c,d] and O = [c,d,e,f] the Inserts are [a,b] and the Updates [c,d]. -/
theorem calculateChanges_upserts (O : List StackSummary) (D : List Stack) :
    (CalculateChanges O D).filter isUpsert
        = D.map (fun w =>
            { Operation :=
                if w.Name ∈ (exclude O deletedStatus).map (fun g => g.StackName)
                then Update else Insert
              Stack := w })
      ∧ stackNames (filter (CalculateChanges (makeStackSummaries ["c", "d", "e", "f"])
          (makeStacks ["a", "b", "c", "d"])) Insert) = ["a", "b"]
      ∧ stackNames (filter (CalculateChanges (makeStackSummaries ["c", "d", "e", "f"])
          (makeStacks ["a", "b", "c", "d"])) Update) = ["c", "d"] := by
  refine ⟨?_, by decide, by decide⟩
  rw [CalculateChanges_eq, filter_isUpsert_changes]
  rfl

/-- Claim C2. `CalculateChanges O D` ends with its Delete changes: it is a list
of Insert/Update changes followed by the Delete changes, which are, in
observed-list order, one `Change{Delete, Stack{Name: g.StackName}}` for each
retained summary `g` whose name is the name of no desired stack, every other
field of the stack being empty. -/
theorem calculateChanges_deletes (O : List StackSummary) (D : List Stack) :
    ∃ upserts : List Change,
      CalculateChanges O D
          = upserts ++ ((exclude O deletedStatus).filter
              (fun g => decide (∀ w ∈ D, g.StackName ≠ w.Name))).map
              (fun g =>
                { Operation := Delete
                  Stack := { Name := g.StackName, Tags := [], TemplateBody := "",
                             Capabilities := [], Parameters := [] } })
        ∧ (∀ c ∈ upserts, c.Operation = Insert ∨ c.Operation = Update)
        ∧ (CalculateChanges O D).filter isDelete
            = ((exclude O deletedStatus).filter
                (fun g => decide (∀ w ∈ D, g.StackName ≠ w.Name))).map
                (fun g =>
                  { Operation := Delete
                    Stack := { Name := g.StackName, Tags := [], TemplateBody := "",
                               Capabilities := [], Parameters := [] } }) := by
  have hp : (fun g : StackSummary => decide (∀ w ∈ D, g.StackName ≠ w.Name))
      = (fun g => decide (g.StackName ∉ D.map (fun w => w.Name))) := by
    funext g
    congr 1
    simp only [List.mem_map, not_exists, not_and, eq_iff_iff]
    constructor
    · intro h w hw heq; exact h w hw heq.symm
    · intro h w hw heq; exact h w hw heq.symm
  refine ⟨D.map (upsertOf (exclude O deletedStatus)), ?_, ?_, ?_⟩
  · rw [CalculateChanges_eq, hp]; rfl
  · intro c hc
    obtain ⟨w, _, rfl⟩ := List.mem_map.1 hc
    have := isUpsert_upsertOf (exclude O deletedStatus) w
    simpa [isUpsert] using this
  · rw [CalculateChanges_eq, filter_isDelete_changes, hp]; rfl

/-- Claim C3. Summaries with status DELETE_COMPLETE or DELETE_FAILED are
logically absent: two observed lists that agree once the summaries with these
two statuses are dropped (so that one is got from the other by inserting and
removing such summaries) give the same changes; the summaries with any other
status are retained; a desired stack all of whose observed summaries are deleted
yields an Insert; and every Delete comes from a summary that is not deleted. -/
theorem calculateChanges_deleted_absent (O O' : List StackSummary) (D : List Stack)
    (h : O.filter (fun g => decide (g.StackStatus ≠ "DELETE_COMPLETE"
            ∧ g.StackStatus ≠ "DELETE_FAILED"))
        = O'.filter (fun g => decide (g.StackStatus ≠ "DELETE_COMPLETE"
            ∧ g.StackStatus ≠ "DELETE_FAILED"))) :
    CalculateChanges O D = CalculateChanges O' D
      ∧ exclude O deletedStatus
          = O.filter (fun g => decide (g.StackStatus ≠ "DELETE_COMPLETE"
              ∧ g.StackStatus ≠ "DELETE_FAILED"))
      ∧ (∀ w ∈ D,
          (∀ g ∈ O, g.StackName = w.Name →
              g.StackStatus = "DELETE_COMPLETE" ∨ g.StackStatus = "DELETE_FAILED") →
          ({ Operation := Insert, Stack := w } : Change) ∈ CalculateChanges O D
            ∧ ∀ c ∈ CalculateChanges O D, c.Stack.Name = w.Name → c.Operation = Insert)
      ∧ (∀ c ∈ CalculateChanges O D, c.Operation = Delete →
          ∃ g ∈ O, g.StackName = c.Stack.Name
            ∧ g.StackStatus ≠ "DELETE_COMPLETE" ∧ g.StackStatus ≠ "DELETE_FAILED") := by
  have hp : (fun g : StackSummary => decide (g.StackStatus ≠ "DELETE_COMPLETE"
      ∧ g.StackStatus ≠ "DELETE_FAILED")) = (fun g => !isDeleted g) := by
    funext g
    simp only [isDeleted, StackStatusDeleteFailed, StackStatusDeleteComplete]
    by_cases h1 : g.StackStatus = "DELETE_COMPLETE" <;>
      by_cases h2 : g.StackStatus = "DELETE_FAILED" <;> simp [h1, h2]
  rw [hp] at h
  have hex : exclude O deletedStatus = exclude O' deletedStatus := by
    rw [exclude_deletedStatus, exclude_deletedStatus, h]
  refine ⟨?_, ?_, ?_, ?_⟩
  · rw [CalculateChanges_eq, CalculateChanges_eq, hex]
  · rw [hp, exclude_deletedStatus]
  · intro w hw hdel
    have hnot : w.Name ∉ (exclude O deletedStatus).map (fun g => g.StackName) := by
      intro hmem
      obtain ⟨g, hg, hname⟩ := List.mem_map.1 hmem
      rw [exclude_deletedStatus] at hg
      obtain ⟨hgO, hgd⟩ := List.mem_filter.1 hg
      have := hdel g hgO hname
      simp only [isDeleted, StackStatusDeleteFailed, StackStatusDeleteComplete] at hgd
      rcases this with h1 | h1 <;> simp [h1] at hgd
    rw [CalculateChanges_eq]
    constructor
    · apply List.mem_append_left
      refine List.mem_map.2 ⟨w, hw, ?_⟩
      simp [upsertOf, hnot]
    · intro c hc hcn
      rcases List.mem_append.1 hc with hc | hc
      · obtain ⟨v, _, rfl⟩ := List.mem_map.1 hc
        have hv : v.Name = w.Name := hcn
        have hvn : v.Name ∉ (exclude O deletedStatus).map (fun g => g.StackName) := by
          rw [hv]; exact hnot
        simp [upsertOf, hvn]
      · obtain ⟨g, hg, rfl⟩ := List.mem_map.1 hc
        have hg' := (List.mem_filter.1 hg).1
        exact absurd (List.mem_map.2 ⟨g, hg', hcn⟩) hnot
  · intro c hc hop
    rw [CalculateChanges_eq] at hc
    rcases List.mem_append.1 hc with hc | hc
    · obtain ⟨w, _, rfl⟩ := List.mem_map.1 hc
      have := isDelete_upsertOf (exclude O deletedStatus) w
      simp [isDelete, hop] at this
    · obtain ⟨g, hg, rfl⟩ := List.mem_map.1 hc
      have hg' := (List.mem_filter.1 hg).1
      rw [exclude_deletedStatus] at hg'
      obtain ⟨hgO, hgd⟩ := List.mem_filter.1 hg'
      refine ⟨g, hgO, rfl, ?_⟩
      simp only [isDeleted, StackStatusDeleteFailed, StackStatusDeleteComplete] at hgd
      by_cases h1 : g.StackStatus = "DELETE_COMPLETE" <;>
        by_cases h2 : g.StackStatus = "DELETE_FAILED" <;> simp [h1, h2] at hgd ⊢

/-- Claim C4. With the observed list taken after deleted-status filtering, the
length of `CalculateChanges O D` is |D| + (|O| - matches), matches being the
number of retained summaries whose name is the name of some desired stack;
exactly |D| of the changes are Insert or Update and |O| - matches are Delete. -/
theorem calculateChanges_length (O : List StackSummary) (D : List Stack) :
    (CalculateChanges O D).length
        = D.length + ((exclude O deletedStatus).length
            - ((exclude O deletedStatus).filter
                (fun g => decide (∃ w ∈ D, w.Name = g.StackName))).length)
      ∧ ((CalculateChanges O D).filter isUpsert).length = D.length
      ∧ ((CalculateChanges O D).filter isDelete).length
          = (exclude O deletedStatus).length
            - ((exclude O deletedStatus).filter
                (fun g => decide (∃ w ∈ D, w.Name = g.StackName))).length := by
  have hp : (fun g : StackSummary => decide (g.StackName ∉ D.map (fun w => w.Name)))
      = (fun g => !(fun g : StackSummary => decide (∃ w ∈ D, w.Name = g.StackName)) g) := by
    funext g
    by_cases hg : ∃ w ∈ D, w.Name = g.StackName
    · have hm : g.StackName ∈ D.map (fun w => w.Name) := by
        obtain ⟨w, hw, hwn⟩ := hg
        exact List.mem_map.2 ⟨w, hw, hwn⟩
      simp only [hg, hm, not_true_eq_false, decide_False, decide_True, Bool.not_true]
    · have hm : g.StackName ∉ D.map (fun w => w.Name) := by
        intro hm
        obtain ⟨w, hw, hwn⟩ := List.mem_map.1 hm
        exact hg ⟨w, hw, hwn⟩
      simp only [hg, hm, not_false_eq_true, decide_False, decide_True, Bool.not_false]
  have hlen := length_filter_not (fun g : StackSummary => decide (∃ w ∈ D, w.Name = g.StackName))
    (exclude O deletedStatus)
  refine ⟨?_, ?_, ?_⟩
  · rw [CalculateChanges_eq, List.length_append, List.length_map, List.length_map, hp, hlen]
  · rw [CalculateChanges_eq, filter_isUpsert_changes, List.length_map]
  · rw [CalculateChanges_eq, filter_isDelete_changes, List.length_map, hp, hlen]

theorem countP_eq_count_map {α : Type} (f : α → String) (n : String) (l : List α) :
    l.countP (fun x => decide (f x = n)) = (l.map f).count n := by
  induction l with
  | nil => simp
  | cons x xs ih =>
    by_cases hx : f x = n
    · simp [List.countP_cons, List.count_cons, hx, ih]
    · simp [List.countP_cons, List.count_cons, hx, ih]

theorem countP_upsert_changes (got kept : List StackSummary) (D : List Stack) (n : String) :
    (D.map (upsertOf got) ++ kept.map deleteOf).countP
        (fun c => isUpsert c && decide (c.Stack.Name = n))
      = (D.map (fun w => w.Name)).count n := by
  rw [List.countP_append, List.countP_map, List.countP_map]
  have h1 : ((fun c : Change => isUpsert c && decide (c.Stack.Name = n)) ∘ upsertOf got)
      = (fun w : Stack => decide (w.Name = n)) := by
    funext w
    simp only [Function.comp, isUpsert_upsertOf, Bool.true_and]
    rfl
  have h2 : ((fun c : Change => isUpsert c && decide (c.Stack.Name = n)) ∘ deleteOf)
      = (fun _ : StackSummary => false) := by
    funext g
    simp only [Function.comp, isUpsert_deleteOf, Bool.false_and]
  rw [h1, h2, countP_eq_count_map]
  simp

theorem countP_delete_changes (got kept : List StackSummary) (D : List Stack) (n : String) :
    (D.map (upsertOf got) ++ kept.map deleteOf).countP
        (fun c => isDelete c && decide (c.Stack.Name = n))
      = (kept.map (fun g => g.StackName)).count n := by
  rw [List.countP_append, List.countP_map, List.countP_map]
  have h1 : ((fun c : Change => isDelete c && decide (c.Stack.Name = n)) ∘ upsertOf got)
      = (fun _ : Stack => false) := by
    funext w
    simp only [Function.comp, isDelete_upsertOf, Bool.false_and]
  have h2 : ((fun c : Change => isDelete c && decide (c.Stack.Name = n)) ∘ deleteOf)
      = (fun g : StackSummary => decide (g.StackName = n)) := by
    funext g
    simp only [Function.comp, isDelete_deleteOf, Bool.true_and]
    rfl
  rw [h1, h2, countP_eq_count_map]
  simp

theorem count_unmatched (got : List StackSummary) (names : List String) (n : String)
    (hn : n ∉ names) :
    ((got.filter (fun g => decide (g.StackName ∉ names))).map (fun g => g.StackName)).count n
      = (got.map (fun g => g.StackName)).count n := by
  induction got with
  | nil => simp
  | cons g rest ih =>
    by_cases hg : g.StackName ∈ names
    · have hne : g.StackName ≠ n := fun h => hn (h ▸ hg)
      simp only [List.filter_cons, hg, not_true_eq_false, decide_False, Bool.false_eq_true,
        if_false, List.map_cons]
      rw [ih, List.count_cons_of_ne (Ne.symm hne)]
    · simp only [List.filter_cons, hg, not_false_eq_true, decide_True, if_true, List.map_cons,
        List.count_cons, ih]

/-- Claim C5 as stated is false: with D empty (its names pairwise distinct) and
O two retained summaries both named `e`, the name `e` occurs in O and matches no
desired name, yet it is the name of two Delete changes. -/
theorem calculateChanges_names_once_counterexample :
    ¬ (∀ (O : List StackSummary) (D : List Stack), (D.map (fun w => w.Name)).Nodup →
        (∀ n ∈ D.map (fun w => w.Name),
          (CalculateChanges O D).countP
            (fun c => isUpsert c && decide (c.Stack.Name = n)) = 1)
        ∧ (∀ n ∈ (exclude O deletedStatus).map (fun g => g.StackName),
            n ∉ D.map (fun w => w.Name) →
            (CalculateChanges O D).countP
              (fun c => isDelete c && decide (c.Stack.Name = n)) = 1)) := by
  intro h
  have h2 := (h [{ StackName := "e", StackStatus := "CREATE_COMPLETE" },
      { StackName := "e", StackStatus := "UPDATE_COMPLETE" }] [] (by decide)).2 "e"
    (by decide) (by decide)
  revert h2
  decide

/-- Claim C5, amended. For a desired list D with pairwise distinct names and
any observed list O: every name in D is the name of exactly one
Insert-or-Update change of `CalculateChanges O D`; every name of a retained
summary that matches no desired name is the name of as many Delete changes as
there are retained summaries with that name, hence of exactly one when the
retained summaries have pairwise distinct names too. -/
theorem calculateChanges_names_once (O : List StackSummary) (D : List Stack)
    (hD : (D.map (fun w => w.Name)).Nodup) :
    (∀ n ∈ D.map (fun w => w.Name),
        (CalculateChanges O D).countP
          (fun c => isUpsert c && decide (c.Stack.Name = n)) = 1)
      ∧ (∀ n ∈ (exclude O deletedStatus).map (fun g => g.StackName),
          n ∉ D.map (fun w => w.Name) →
          (CalculateChanges O D).countP
              (fun c => isDelete c && decide (c.Stack.Name = n))
            = ((exclude O deletedStatus).map (fun g => g.StackName)).count n)
      ∧ (((exclude O deletedStatus).map (fun g => g.StackName)).Nodup →
          ∀ n ∈ (exclude O deletedStatus).map (fun g => g.StackName),
            n ∉ D.map (fun w => w.Name) →
            (CalculateChanges O D).countP
              (fun c => isDelete c && decide (c.Stack.Name = n)) = 1) := by
  have hdel : ∀ n, n ∉ D.map (fun w => w.Name) →
      (CalculateChanges O D).countP (fun c => isDelete c && decide (c.Stack.Name = n))
        = ((exclude O deletedStatus).map (fun g => g.StackName)).count n := by
    intro n hn
    rw [CalculateChanges_eq, countP_delete_changes]
    exact count_unmatched (exclude O deletedStatus) (D.map (fun w => w.Name)) n hn
  refine ⟨?_, ?_, ?_⟩
  · intro n hn
    rw [CalculateChanges_eq, countP_upsert_changes]
    exact List.count_eq_one_of_mem hD hn
  · intro n _ hn
    exact hdel n hn
  · intro hO n hmem hn
    rw [hdel n hn]
    exact List.count_eq_one_of_mem hO hmem

/-- Witness of `calculateChanges_names_once` on the kitchen-sink example. -/
theorem calculateChanges_names_once_witness :
    ((makeStacks ["a", "b", "c", "d"]).map (fun w => w.Name)).Nodup
      ∧ (CalculateChanges (makeStackSummaries ["c", "d", "e", "f"])
          (makeStacks ["a", "b", "c", "d"])).countP
            (fun c => isUpsert c && decide (c.Stack.Name = "c")) = 1
      ∧ (CalculateChanges (makeStackSummaries ["c", "d", "e", "f"])
          (makeStacks ["a", "b", "c", "d"])).countP
            (fun c => isDelete c && decide (c.Stack.Name = "e")) = 1 :=
  have hD : ((makeStacks ["a", "b", "c", "d"]).map (fun w => w.Name)).Nodup := by decide
  have h := calculateChanges_names_once (makeStackSummaries ["c", "d", "e", "f"])
    (makeStacks ["a", "b", "c", "d"]) hD
  ⟨hD, h.1 "c" (by decide), h.2.2 (by decide) "e" (by decide) (by decide)⟩

/-- Claim C6. Idempotence of the diff: when the names of the retained observed
summaries and the names of the desired stacks are the same set,
`CalculateChanges O D` is exactly one Update per desired stack in desired order,
so it holds no Insert and no Delete. -/
theorem calculateChanges_idempotent (O : List StackSummary) (D : List Stack)
    (h : ∀ n, n ∈ (exclude O deletedStatus).map (fun g => g.StackName)
          ↔ n ∈ D.map (fun w => w.Name)) :
    CalculateChanges O D = D.map (fun w => { Operation := Update, Stack := w })
      ∧ (∀ c ∈ CalculateChanges O D, c.Operation = Update)
      ∧ filter (CalculateChanges O D) Insert = []
      ∧ filter (CalculateChanges O D) Delete = [] := by
  have heq : CalculateChanges O D = D.map (fun w => { Operation := Update, Stack := w }) := by
    rw [CalculateChanges_eq]
    have h1 : (exclude O deletedStatus).filter
        (fun g => decide (g.StackName ∉ D.map (fun w => w.Name))) = [] := by
      apply List.filter_eq_nil_iff.2
      intro g hg
      have : g.StackName ∈ D.map (fun w => w.Name) :=
        (h g.StackName).1 (List.mem_map.2 ⟨g, hg, rfl⟩)
      simp only [this, not_true_eq_false, decide_False, Bool.false_eq_true, not_false_eq_true]
    rw [h1, List.map_nil, List.append_nil]
    apply List.map_congr_left
    intro w hw
    have : w.Name ∈ (exclude O deletedStatus).map (fun g => g.StackName) :=
      (h w.Name).2 (List.mem_map.2 ⟨w, hw, rfl⟩)
    simp only [upsertOf, this, if_true]
  have hall : ∀ c ∈ CalculateChanges O D, c.Operation = Update := by
    intro c hc
    rw [heq] at hc
    obtain ⟨w, _, rfl⟩ := List.mem_map.1 hc
    rfl
  have hnone : ∀ (op : Operation), op ≠ Update → filter (CalculateChanges O D) op = [] := by
    intro op hop
    unfold filter
    have hf := foldl_append_ite (fun c : Change => !decide (c.Operation = op))
      (fun c => c.Stack) (CalculateChanges O D) []
    have hfun : (fun (got : List Stack) (change : Change) =>
          if change.Operation = op then got ++ [change.Stack] else got)
        = (fun acc x => if (fun c : Change => !decide (c.Operation = op)) x = true then acc
            else acc ++ [(fun c : Change => c.Stack) x]) := by
      funext got change
      by_cases hc : change.Operation = op <;> simp [hc]
    rw [hfun, hf]
    have hnil : (CalculateChanges O D).filter
        (fun x => !(fun c : Change => !decide (c.Operation = op)) x) = [] := by
      apply List.filter_eq_nil_iff.2
      intro c hc
      have := hall c hc
      have hne : ¬ c.Operation = op := fun e => hop (e ▸ this)
      simp [hne]
    rw [hnil]
    rfl
  exact ⟨heq, hall, hnone Insert (by decide), hnone Delete (by decide)⟩

/-- Witness of `calculateChanges_idempotent`: D = O = [abc, def] gives the
Updates [abc, def]. -/
theorem calculateChanges_idempotent_witness :
    CalculateChanges (makeStackSummaries ["abc", "def"]) (makeStacks ["abc", "def"])
        = [{ Operation := Update, Stack := { Name := "abc" } },
           { Operation := Update, Stack := { Name := "def" } }]
      ∧ filter (CalculateChanges (makeStackSummaries ["abc", "def"])
          (makeStacks ["abc", "def"])) Insert = [] :=
  have h := calculateChanges_idempotent (makeStackSummaries ["abc", "def"])
    (makeStacks ["abc", "def"]) (by
      intro n
      have e1 : (exclude (makeStackSummaries ["abc", "def"]) deletedStatus).map
          (fun g => g.StackName) = ["abc", "def"] := by decide
      have e2 : (makeStacks ["abc", "def"]).map (fun w => w.Name) = ["abc", "def"] := by decide
      rw [e1, e2])
  ⟨h.1, h.2.2.1⟩

/-- Claim C7. Edge cases of `CalculateChanges`: with an empty desired list the
output is one Delete per retained summary in observed order, so it is empty
when the observed list is empty too; when no observed summary is retained the
output is one Insert per desired stack in desired order. -/
theorem calculateChanges_edge_cases (O : List StackSummary) (D : List Stack) :
    CalculateChanges O []
        = (exclude O deletedStatus).map
            (fun g => { Operation := Delete, Stack := { Name := g.StackName } })
      ∧ CalculateChanges [] [] = []
      ∧ (exclude O deletedStatus = [] →
          CalculateChanges O D = D.map (fun w => { Operation := Insert, Stack := w })) := by
  refine ⟨?_, by decide, ?_⟩
  · rw [CalculateChanges_eq]
    simp only [List.map_nil, List.nil_append, List.not_mem_nil, not_false_eq_true, decide_True,
      List.filter_true]
    rfl
  · intro h
    rw [CalculateChanges_eq, h]
    simp only [List.filter_nil, List.map_nil, List.append_nil]
    apply List.map_congr_left
    intro w _
    simp [upsertOf]

/-- Witness of `calculateChanges_edge_cases`: the only observed summary is a
deleted one, and both desired stacks are inserted. -/
theorem calculateChanges_edge_cases_witness :
    exclude [{ StackName := "abc", StackStatus := "DELETE_COMPLETE" }] deletedStatus = []
      ∧ CalculateChanges [{ StackName := "abc", StackStatus := "DELETE_COMPLETE" }]
          (makeStacks ["abc", "def"])
        = (makeStacks ["abc", "def"]).map (fun w => { Operation := Insert, Stack := w }) :=
  ⟨by decide,
    (calculateChanges_edge_cases [{ StackName := "abc", StackStatus := "DELETE_COMPLETE" }]
      (makeStacks ["abc", "def"])).2.2 (by decide)⟩

/-- Witness of `calculateChanges_deleted_absent`: two observed lists that differ
by deleted summaries only. -/
theorem calculateChanges_deleted_absent_witness :
    CalculateChanges
        [{ StackName := "a", StackStatus := "DELETE_COMPLETE" },
         { StackName := "b", StackStatus := "CREATE_COMPLETE" }]
        (makeStacks ["a", "c"])
      = CalculateChanges
        [{ StackName := "b", StackStatus := "CREATE_COMPLETE" },
         { StackName := "c", StackStatus := "DELETE_FAILED" }]
        (makeStacks ["a", "c"]) :=
  (calculateChanges_deleted_absent
    [{ StackName := "a", StackStatus := "DELETE_COMPLETE" },
     { StackName := "b", StackStatus := "CREATE_COMPLETE" }]
    [{ StackName := "b", StackStatus := "CREATE_COMPLETE" },
     { StackName := "c", StackStatus := "DELETE_FAILED" }]
    (makeStacks ["a", "c"]) (by decide)).1

/-! ## Apply -/

theorem invokeUntilError_append (m : Manager) (a b : List Invocation) (w : World) :
    m.invokeUntilError (a ++ b) w
      = match m.invokeUntilError a w with
        | (some err, w) => (some err, w)
        | (none, w) => m.invokeUntilError b w := by
  induction a generalizing w with
  | nil => simp [Manager.invokeUntilError]
  | cons op rest ih =>
    simp only [List.cons_append, Manager.invokeUntilError]
    rcases hop : m.invoke op w with ⟨err, w1⟩
    cases err with
    | none => exact ih w1
    | some e => rfl

theorem applyDeletes_eq (m : Manager) (rev : List Change) (w : World) :
    m.applyDeletes rev w
      = m.invokeUntilError
          ((rev.filter (fun c => decide (c.Operation = Delete))).map
            (fun c => Invocation.Delete c.Stack.Name)) w := by
  induction rev generalizing w with
  | nil => simp [Manager.applyDeletes, Manager.invokeUntilError]
  | cons change rest ih =>
    unfold Manager.applyDeletes
    by_cases h : change.Operation = Delete
    · simp only [h, ne_eq, not_true_eq_false, if_false, List.filter_cons, decide_True, if_true,
        List.map_cons, Manager.invokeUntilError, Manager.invoke]
      rcases hd : m.Delete change.Stack.Name w with ⟨err, w1⟩
      cases err with
      | none => exact ih w1
      | some e => rfl
    · simp only [h, ne_eq, not_false_eq_true, if_true, List.filter_cons, decide_False,
        Bool.false_eq_true, if_false]
      exact ih w

theorem applyUpserts_eq (m : Manager) (changes : List Change) (w : World) :
    m.applyUpserts changes w
      = m.invokeUntilError
          (changes.filterMap (fun c =>
            if c.Operation = Insert then some (Invocation.Create c.Stack)
            else if c.Operation = Update then some (Invocation.Update c.Stack)
            else none)) w := by
  induction changes generalizing w with
  | nil => simp [Manager.applyUpserts, Manager.invokeUntilError]
  | cons change rest ih =>
    unfold Manager.applyUpserts
    by_cases h1 : change.Operation = Insert
    · simp only [h1, if_true, List.filterMap_cons, Manager.invokeUntilError, Manager.invoke]
      rcases hd : m.Create change.Stack w with ⟨err, w1⟩
      cases err with
      | none => exact ih w1
      | some e => rfl
    · by_cases h2 : change.Operation = Update
      · have hne : ¬ (Update = Insert) := by decide
        simp only [h2, hne, if_true, if_false, List.filterMap_cons, Manager.invokeUntilError,
          Manager.invoke]
        rcases hd : m.Update change.Stack w with ⟨err, w1⟩
        cases err with
        | none => exact ih w1
        | some e => rfl
      · simp only [h1, h2, if_false, List.filterMap_cons]
        exact ih w

/-- The method `Apply` makes the invocations of `applyOrder` one after the
other, up to the first that returns an error. -/
theorem Apply_eq_invokeUntilError (m : Manager) (changes : List Change) (w : World) :
    m.Apply changes w = m.invokeUntilError (applyOrder changes) w := by
  unfold Manager.Apply applyOrder
  rw [invokeUntilError_append, applyDeletes_eq, List.filter_reverse]
  generalize m.invokeUntilError _ w = r
  rcases r with ⟨err, w1⟩
  cases err with
  | none => exact applyUpserts_eq m changes w1
  | some e => rfl

theorem invokeUntilError_of_allSucceed (m : Manager) (ops : List Invocation) (w : World)
    (h : m.allSucceed ops w = true) :
    m.invokeUntilError ops w = (none, m.invokeAll ops w) := by
  induction ops generalizing w with
  | nil => rfl
  | cons op rest ih =>
    unfold Manager.allSucceed at h
    unfold Manager.invokeUntilError
    simp only [Manager.invokeAll, List.foldl_cons]
    rcases hop : m.invoke op w with ⟨err, w1⟩
    rw [hop] at h
    cases err with
    | none => exact ih w1 h
    | some e => simp at h

theorem invokeAll_append (m : Manager) (a b : List Invocation) (w : World) :
    m.invokeAll (a ++ b) w = m.invokeAll b (m.invokeAll a w) := by
  simp [Manager.invokeAll, List.foldl_append]

theorem applyOrder_perm (changes : List Change) :
    (applyOrder changes).Perm (changes.filterMap invocationOf) := by
  induction changes with
  | nil => simp [applyOrder]
  | cons c cs ih =>
    unfold applyOrder at ih ⊢
    have hID : ¬ (Insert = Delete) := by decide
    have hUD : ¬ (Update = Delete) := by decide
    have hUI : ¬ (Update = Insert) := by decide
    by_cases hd : c.Operation = Delete
    · have hi : ¬ c.Operation = Insert := by rw [hd]; decide
      have hu : ¬ c.Operation = Update := by rw [hd]; decide
      have e1 : (c :: cs).filter (fun c => decide (c.Operation = Delete))
          = c :: cs.filter (fun c => decide (c.Operation = Delete)) := by
        simp [List.filter_cons, hd]
      have e2 : (c :: cs).filterMap (fun c =>
            if c.Operation = Insert then some (Invocation.Create c.Stack)
            else if c.Operation = Update then some (Invocation.Update c.Stack)
            else none)
          = cs.filterMap (fun c =>
            if c.Operation = Insert then some (Invocation.Create c.Stack)
            else if c.Operation = Update then some (Invocation.Update c.Stack)
            else none) := by
        rw [List.filterMap_cons]; simp only [hi, hu, if_false]
      have e3 : (c :: cs).filterMap invocationOf
          = Invocation.Delete c.Stack.Name :: cs.filterMap invocationOf := by
        rw [List.filterMap_cons]; simp only [invocationOf, hd, if_true]
      rw [e1, e2, e3]
      simp only [List.reverse_cons, List.map_append, List.map_cons, List.map_nil,
        List.append_assoc, List.singleton_append]
      exact List.Perm.trans List.perm_middle (List.Perm.cons _ ih)
    · have e1 : (c :: cs).filter (fun c => decide (c.Operation = Delete))
          = cs.filter (fun c => decide (c.Operation = Delete)) := by
        simp [List.filter_cons, hd]
      rw [e1]
      by_cases hi : c.Operation = Insert
      · have e2 : (c :: cs).filterMap (fun c =>
              if c.Operation = Insert then some (Invocation.Create c.Stack)
              else if c.Operation = Update then some (Invocation.Update c.Stack)
              else none)
            = Invocation.Create c.Stack :: cs.filterMap (fun c =>
              if c.Operation = Insert then some (Invocation.Create c.Stack)
              else if c.Operation = Update then some (Invocation.Update c.Stack)
              else none) := by
          rw [List.filterMap_cons]; simp only [hi, if_true]
        have e3 : (c :: cs).filterMap invocationOf
            = Invocation.Create c.Stack :: cs.filterMap invocationOf := by
          rw [List.filterMap_cons]; simp only [invocationOf, hi, hID, if_true, if_false]
        rw [e2, e3]
        exact List.Perm.trans List.perm_middle (List.Perm.cons _ ih)
      · by_cases hu : c.Operation = Update
        · have e2 : (c :: cs).filterMap (fun c =>
                if c.Operation = Insert then some (Invocation.Create c.Stack)
                else if c.Operation = Update then some (Invocation.Update c.Stack)
                else none)
              = Invocation.Update c.Stack :: cs.filterMap (fun c =>
                if c.Operation = Insert then some (Invocation.Create c.Stack)
                else if c.Operation = Update then some (Invocation.Update c.Stack)
                else none) := by
            rw [List.filterMap_cons]; simp only [hu, hUI, if_true, if_false]
          have e3 : (c :: cs).filterMap invocationOf
              = Invocation.Update c.Stack :: cs.filterMap invocationOf := by
            rw [List.filterMap_cons]; simp only [invocationOf, hu, hUD, hUI, if_true, if_false]
          rw [e2, e3]
          exact List.Perm.trans List.perm_middle (List.Perm.cons _ ih)
        · have e2 : (c :: cs).filterMap (fun c =>
                if c.Operation = Insert then some (Invocation.Create c.Stack)
                else if c.Operation = Update then some (Invocation.Update c.Stack)
                else none)
              = cs.filterMap (fun c =>
                if c.Operation = Insert then some (Invocation.Create c.Stack)
                else if c.Operation = Update then some (Invocation.Update c.Stack)
                else none) := by
            rw [List.filterMap_cons]; simp only [hi, hu, if_false]
          have e3 : (c :: cs).filterMap invocationOf = cs.filterMap invocationOf := by
            rw [List.filterMap_cons]; simp only [invocationOf, hd, hi, hu, if_false]
          rw [e2, e3]
          exact ih

/-- Claim C8. When every operation that `Apply` invokes succeeds, `Apply`
returns nil and the world is the one reached by invoking, in this order,
Delete by name for every Delete change in reverse list order and then, in list
order, Create for every Insert change and Update for every Update change; these
invocations are, up to order, exactly one per Insert, Update or Delete change. -/
theorem apply_order (m : Manager) (changes : List Change) (w : World)
    (h : m.allSucceed (applyOrder changes) w = true) :
    m.Apply changes w = (none, m.invokeAll (applyOrder changes) w)
      ∧ (applyOrder changes).Perm (changes.filterMap invocationOf) := by
  refine ⟨?_, applyOrder_perm changes⟩
  rw [Apply_eq_invokeUntilError]
  exact invokeUntilError_of_allSucceed m (applyOrder changes) w h

/-- Witness of `apply_order`: on an API where every call succeeds, the two
Deletes are applied last-first, then the Insert and the Update in list order;
the change with an unknown operation is skipped. -/
theorem apply_order_witness :
    (Manager.Apply { api := alwaysNil, options := buildOptions [] }
        [{ Operation := Delete, Stack := { Name := "x" } },
         { Operation := Insert, Stack := { Name := "a" } },
         { Operation := Delete, Stack := { Name := "y" } },
         { Operation := "noop", Stack := { Name := "z" } },
         { Operation := Update, Stack := { Name := "b" } }] {}).1 = none
      ∧ (Manager.Apply { api := alwaysNil, options := buildOptions [] }
        [{ Operation := Delete, Stack := { Name := "x" } },
         { Operation := Insert, Stack := { Name := "a" } },
         { Operation := Delete, Stack := { Name := "y" } },
         { Operation := "noop", Stack := { Name := "z" } },
         { Operation := Update, Stack := { Name := "b" } }] {}).2.calls
        = [.DeleteStackRequest "y", .observeEvents "y", .WaitUntilStackUpdateComplete "y",
           .DeleteStackRequest "x", .observeEvents "x", .WaitUntilStackUpdateComplete "x",
           .CreateStackRequest { Capabilities := [], Parameters := [], StackName := "a",
                                 Tags := [], TemplateBody := "" },
           .observeEvents "a", .WaitUntilStackCreateComplete "a",
           .UpdateStackRequest { Capabilities := [], Parameters := [], StackName := "b",
                                 Tags := [], TemplateBody := "" },
           .observeEvents "b", .WaitUntilStackUpdateComplete "b"] :=
  have h := (apply_order { api := alwaysNil, options := buildOptions [] }
    [{ Operation := Delete, Stack := { Name := "x" } },
     { Operation := Insert, Stack := { Name := "a" } },
     { Operation := Delete, Stack := { Name := "y" } },
     { Operation := "noop", Stack := { Name := "z" } },
     { Operation := Update, Stack := { Name := "b" } }] {} (by decide)).1
  ⟨by rw [h], by rw [h]; decide⟩

theorem wraps_self (e : GoError) : e.wraps e = true := by
  cases e <;> simp [GoError.wraps]

theorem allSucceed_append_fail (m : Manager) (done rest : List Invocation) (op : Invocation)
    (e : GoError) (w : World) (hdone : m.allSucceed done w = true)
    (hfail : (m.invoke op (m.invokeAll done w)).1 = some e) :
    m.invokeUntilError (done ++ op :: rest) w
      = (some (.wrapped "failed to apply changes: " e), m.invokeAll (done ++ [op]) w) := by
  rw [invokeUntilError_append, invokeUntilError_of_allSucceed m done w hdone, invokeAll_append]
  simp only [Manager.invokeUntilError, Manager.invokeAll, List.foldl_cons, List.foldl_nil]
  rcases hop : m.invoke op (List.foldl (fun w op => (m.invoke op w).2) w done) with ⟨err, w1⟩
  simp only [Manager.invokeAll] at hfail
  rw [hop] at hfail
  simp only at hfail
  rw [hfail]

/-- Claim C9. `Apply` aborts on the first failing operation: when the
invocations before `op` in the order of application succeed and `op` returns the
error `e`, `Apply` returns a non-nil error that wraps `e`, and the world is the
one reached by the invocations up to `op` and no other: nothing of `rest` is
invoked and nothing is undone. -/
theorem apply_abort (m : Manager) (changes : List Change) (w : World)
    (done rest : List Invocation) (op : Invocation) (e : GoError)
    (hsplit : applyOrder changes = done ++ op :: rest)
    (hdone : m.allSucceed done w = true)
    (hfail : (m.invoke op (m.invokeAll done w)).1 = some e) :
    m.Apply changes w
        = (some (.wrapped "failed to apply changes: " e), m.invokeAll (done ++ [op]) w)
      ∧ (GoError.wrapped "failed to apply changes: " e).wraps e = true
      ∧ (done ++ [op]).IsPrefix (applyOrder changes) := by
  refine ⟨?_, ?_, ?_⟩
  · rw [Apply_eq_invokeUntilError, hsplit]
    exact allSucceed_append_fail m done rest op e w hdone hfail
  · unfold GoError.wraps
    simp [wraps_self]
  · rw [hsplit]
    exact ⟨rest, by simp⟩

/-- Witness of `apply_abort`: the delete request of `x` is refused, after the
delete of `y` went through; the stack `a` is never created and `y` is not
restored. -/
theorem apply_abort_witness :
    Manager.Apply { api := failsOnDeleteX, options := buildOptions [] }
        [{ Operation := Insert, Stack := { Name := "a" } },
         { Operation := Delete, Stack := { Name := "x" } },
         { Operation := Delete, Stack := { Name := "y" } }] {}
      = (some (.wrapped "failed to apply changes: "
            (.wrapped "failed to delete stack, x: " (.aws "AccessDenied" "not allowed"))),
         { calls := [.DeleteStackRequest "y", .observeEvents "y",
                     .WaitUntilStackUpdateComplete "y", .DeleteStackRequest "x"] }) :=
  have h := (apply_abort { api := failsOnDeleteX, options := buildOptions [] }
    [{ Operation := Insert, Stack := { Name := "a" } },
     { Operation := Delete, Stack := { Name := "x" } },
     { Operation := Delete, Stack := { Name := "y" } }] {}
    [.Delete "y"] [.Create { Name := "a" }] (.Delete "x")
    (.wrapped "failed to delete stack, x: " (.aws "AccessDenied" "not allowed"))
    (by decide) (by decide) (by decide)).1
  by rw [h]; decide

/-! ## Dry run -/

/-- Claim C10. With the DryRun option set, `Create`, `Update` and `Delete`
return nil and leave the world as it is, whatever the remote API would answer:
no request is sent, no observer is started and no wait call is made. -/
theorem dryRun_no_remote_call (m : Manager) (h : m.options.DryRun = true)
    (stack : Stack) (stackName : String) (w : World) :
    m.Create stack w = (none, w)
      ∧ m.Update stack w = (none, w)
      ∧ m.Delete stackName w = (none, w) := by
  refine ⟨?_, ?_, ?_⟩
  · simp [Manager.Create, Manager.createBody, h, hideCanceled]
  · simp [Manager.Update, Manager.updateBody, h, hideCanceled]
  · simp [Manager.Delete, Manager.deleteBody, h, hideCanceled]

/-- Witness of `dryRun_no_remote_call`: a manager built with `WithDryRun(true)`
over an API on which every call would fail. -/
theorem dryRun_no_remote_call_witness :
    (New alwaysFails [WithDryRun true]).options.DryRun = true
      ∧ ((New alwaysFails [WithDryRun true]).Create { Name := "a" } {}).1 = none
      ∧ ((New alwaysFails [WithDryRun true]).Create { Name := "a" } {}).2.calls = []
      ∧ (New alwaysFails [WithDryRun true]).Delete "a" {} = (none, {}) :=
  have h := dryRun_no_remote_call (New alwaysFails [WithDryRun true]) (by decide)
    { Name := "a" } "a" {}
  ⟨by decide, by rw [h.1], by rw [h.1], h.2.2⟩

/-! ## Errors of Create, Update and Delete -/

theorem strings_Contains_mid (a n b : String) : strings.Contains (a ++ n ++ b) n = true := by
  unfold strings.Contains
  rw [List.any_eq_true]
  refine ⟨n.toList ++ b.toList, ?_, ?_⟩
  · rw [List.mem_tails]
    refine ⟨a.toList, ?_⟩
    simp [String.toList, String.data_append]
  · rw [List.isPrefixOf_iff_prefix]
    exact List.prefix_append _ _

theorem asAws_wrapped (text : String) (err : GoError) :
    (GoError.wrapped text err).asAws = err.asAws := rfl

/-- Claim C11. With DryRun off, when the create-stack request fails with an
error that is not a cancellation, `Create` returns the error
"unable to create stack, NAME: " wrapping it, having sent the request once and
started neither the observer nor the wait call; when the request succeeds and
the wait call fails with an error that is not a cancellation, `Create` returns
that error wrapped with the stack name. -/
theorem create_errors (m : Manager) (hdry : m.options.DryRun = false) (stack : Stack)
    (w : World) (err : GoError) (hcancel : err.isCanceled = false) :
    (m.api.respond w.calls (.CreateStackRequest (m.createStackInput stack)) = some err →
        m.Create stack w
            = (some (.wrapped ("unable to create stack, " ++ stack.Name ++ ": ") err),
               { calls := w.calls ++ [.CreateStackRequest (m.createStackInput stack)] })
          ∧ (GoError.wrapped ("unable to create stack, " ++ stack.Name ++ ": ") err).wraps err
              = true
          ∧ strings.Contains
              (GoError.wrapped ("unable to create stack, " ++ stack.Name ++ ": ") err).Error
              "create stack" = true
          ∧ strings.Contains
              (GoError.wrapped ("unable to create stack, " ++ stack.Name ++ ": ") err).Error
              stack.Name = true)
      ∧ (m.api.respond w.calls (.CreateStackRequest (m.createStackInput stack)) = none →
          m.api.respond
              (w.calls ++ [.CreateStackRequest (m.createStackInput stack),
                           .observeEvents stack.Name])
              (.WaitUntilStackCreateComplete stack.Name) = some err →
          m.Create stack w
              = (some (.wrapped ("failed while waiting for complete to finish for stack, "
                    ++ stack.Name ++ ": ") err),
                 { calls := w.calls ++ [.CreateStackRequest (m.createStackInput stack),
                                        .observeEvents stack.Name,
                                        .WaitUntilStackCreateComplete stack.Name] })
            ∧ (GoError.wrapped ("failed while waiting for complete to finish for stack, "
                  ++ stack.Name ++ ": ") err).wraps err = true
            ∧ strings.Contains
                (GoError.wrapped ("failed while waiting for complete to finish for stack, "
                  ++ stack.Name ++ ": ") err).Error
                stack.Name = true) := by
  constructor
  · intro hreq
    refine ⟨?_, ?_, ?_, ?_⟩
    · simp only [Manager.createStackInput] at hreq
      simp [Manager.Create, Manager.createBody, hdry, ClientAPI.call, hreq, hideCanceled,
        GoError.isCanceled, hcancel, Manager.createStackInput]
    · unfold GoError.wraps
      simp [wraps_self]
    · have e : (GoError.wrapped ("unable to create stack, " ++ stack.Name ++ ": ") err).Error
          = "unable to " ++ "create stack" ++ (", " ++ stack.Name ++ ": " ++ err.Error) := by
        simp only [GoError.Error]
        have : "unable to create stack, " = "unable to " ++ "create stack" ++ ", " := by decide
        rw [this]
        simp only [String.append_assoc]
      rw [e]
      exact strings_Contains_mid _ _ _
    · have e : (GoError.wrapped ("unable to create stack, " ++ stack.Name ++ ": ") err).Error
          = "unable to create stack, " ++ stack.Name ++ (": " ++ err.Error) := by
        simp only [GoError.Error, String.append_assoc]
      rw [e]
      exact strings_Contains_mid _ _ _
  · intro hreq hwait
    refine ⟨?_, ?_, ?_⟩
    · simp only [Manager.createStackInput] at hreq hwait
      simp [Manager.Create, Manager.createBody, hdry, ClientAPI.call, hreq, hideCanceled,
        GoError.isCanceled, hcancel, Manager.createStackInput, World.spawn, hwait]
    · unfold GoError.wraps
      simp [wraps_self]
    · have e : (GoError.wrapped ("failed while waiting for complete to finish for stack, "
            ++ stack.Name ++ ": ") err).Error
          = "failed while waiting for complete to finish for stack, " ++ stack.Name
              ++ (": " ++ err.Error) := by
        simp only [GoError.Error, String.append_assoc]
      rw [e]
      exact strings_Contains_mid _ _ _

/-- Witness of `create_errors`: the create request of the stack `a` is refused. -/
theorem create_errors_witness :
    Manager.Create
        { api := failsOn isCreateStackRequest (.aws "AlreadyExistsException" "stack exists"),
          options := buildOptions [] }
        { Name := "a" } {}
      = (some (.wrapped "unable to create stack, a: "
            (.aws "AlreadyExistsException" "stack exists")),
         { calls := [.CreateStackRequest
            { Capabilities := [], Parameters := [], StackName := "a", Tags := [],
              TemplateBody := "" }] }) :=
  ((create_errors
    { api := failsOn isCreateStackRequest (.aws "AlreadyExistsException" "stack exists"),
      options := buildOptions [] }
    (by decide) { Name := "a" } {} (.aws "AlreadyExistsException" "stack exists")
    (by decide)).1 (by decide)).1

theorem hideCanceled_eq_some (r : Option GoError) (e : GoError)
    (h : hideCanceled r = some e) : e.isCanceled = false := by
  unfold hideCanceled at h
  cases r with
  | none => simp at h
  | some e' =>
    by_cases hc : e'.isCanceled = true
    · simp [hc] at h
    · simp only [hc, Bool.false_eq_true, if_false, Option.some.injEq] at h
      rw [← h]
      simpa using hc

/-- Claim C12 as stated is false: an update-request error with the code
`RequestCanceled` (another code than `ValidationError`) that is a context
cancellation is not returned; `Update` returns nil. -/
theorem update_noop_counterexample :
    ¬ (∀ (m : Manager) (stack : Stack) (w : World) (err : GoError) (code message : String),
        m.options.DryRun = false →
        m.api.respond w.calls (.UpdateStackRequest (m.updateStackInput stack)) = some err →
        err.asAws = some (code, message) →
        (code ≠ errValidationError
          ∨ strings.Contains message "No updates are to be performed." = false) →
        ∃ e, (m.Update stack w).1 = some e) := by
  intro h
  obtain ⟨e, he⟩ := h
    { api := failsOn isUpdateStackRequest requestCanceled, options := buildOptions [] }
    { Name := "a" } {} requestCanceled "RequestCanceled" "request context canceled"
    (by decide) (by decide) (by decide) (Or.inl (by decide))
  have hnil : (Manager.Update
      { api := failsOn isUpdateStackRequest requestCanceled, options := buildOptions [] }
      { Name := "a" } {}).1 = none := by decide
  rw [hnil] at he
  cases he

/-- Claim C12, amended. With DryRun off, when the update-stack request fails with
an error whose code is `ValidationError` and whose message contains
"No updates are to be performed.", `Update` returns nil without starting the
observer or the wait call; an error with any other code, or a `ValidationError`
with any other message, is returned as the error
"unable to update stack, NAME: " wrapping it when it is not a context
cancellation, and is turned into nil when it is one. -/
theorem update_noop (m : Manager) (hdry : m.options.DryRun = false) (stack : Stack)
    (w : World) (err : GoError) (code message : String)
    (hreq : m.api.respond w.calls (.UpdateStackRequest (m.updateStackInput stack)) = some err)
    (hcode : err.asAws = some (code, message)) :
    (code = errValidationError →
        strings.Contains message "No updates are to be performed." = true →
        m.Update stack w
          = (none, { calls := w.calls ++ [.UpdateStackRequest (m.updateStackInput stack)] }))
      ∧ ((code ≠ errValidationError
            ∨ strings.Contains message "No updates are to be performed." = false) →
          (err.isCanceled = false →
            m.Update stack w
                = (some (.wrapped ("unable to update stack, " ++ stack.Name ++ ": ") err),
                   { calls := w.calls ++ [.UpdateStackRequest (m.updateStackInput stack)] })
              ∧ strings.Contains
                  (GoError.wrapped ("unable to update stack, " ++ stack.Name ++ ": ") err).Error
                  stack.Name = true)
          ∧ (err.isCanceled = true →
              m.Update stack w
                = (none,
                   { calls := w.calls
                      ++ [.UpdateStackRequest (m.updateStackInput stack)] }))) := by
  simp only [Manager.updateStackInput] at hreq
  constructor
  · intro hc hm
    simp [Manager.Update, Manager.updateBody, hdry, ClientAPI.call, hreq, hcode, hc, hm,
      hideCanceled, Manager.updateStackInput]
  · intro hother
    have hbody : m.updateBody stack w
        = (some (.wrapped ("unable to update stack, " ++ stack.Name ++ ": ") err),
           { calls := w.calls ++ [.UpdateStackRequest (m.updateStackInput stack)] }) := by
      rcases hother with hc | hm
      · simp [Manager.updateBody, hdry, ClientAPI.call, hreq, hcode, hc,
          Manager.updateStackInput]
      · simp [Manager.updateBody, hdry, ClientAPI.call, hreq, hcode, hm,
          Manager.updateStackInput]
    constructor
    · intro hcancel
      constructor
      · simp [Manager.Update, hbody, hideCanceled, GoError.isCanceled, hcancel]
      · have e : (GoError.wrapped ("unable to update stack, " ++ stack.Name ++ ": ") err).Error
            = "unable to update stack, " ++ stack.Name ++ (": " ++ err.Error) := by
          simp only [GoError.Error, String.append_assoc]
        rw [e]
        exact strings_Contains_mid _ _ _
    · intro hcancel
      simp [Manager.Update, hbody, hideCanceled, GoError.isCanceled, hcancel]

/-- Witness of `update_noop`: the remote API reports that there is nothing to
update, and `Update` returns nil after the request alone. -/
theorem update_noop_witness :
    Manager.Update
        { api := failsOn isUpdateStackRequest
            (.aws "ValidationError" "No updates are to be performed."),
          options := buildOptions [] }
        { Name := "a" } {}
      = (none,
         { calls := [.UpdateStackRequest
            { Capabilities := [], Parameters := [], StackName := "a", Tags := [],
              TemplateBody := "" }] }) :=
  (update_noop
    { api := failsOn isUpdateStackRequest
        (.aws "ValidationError" "No updates are to be performed."),
      options := buildOptions [] }
    (by decide) { Name := "a" } {} (.aws "ValidationError" "No updates are to be performed.")
    "ValidationError" "No updates are to be performed." (by decide) (by decide)).1
    (by decide) (by decide)

/-- Claim C13 as stated is false in its last part: a failure of the
delete-stack request that is a context cancellation is not returned as an
error; `Delete` returns nil. -/
theorem delete_errors_counterexample :
    ¬ (∀ (m : Manager) (stackName : String) (w : World) (err : GoError),
        m.options.DryRun = false →
        m.api.respond w.calls (.DeleteStackRequest stackName) = some err →
        ∃ e, (m.Delete stackName w).1 = some e) := by
  intro h
  obtain ⟨e, he⟩ := h
    { api := failsOn isDeleteStackRequest requestCanceled, options := buildOptions [] }
    "x" {} requestCanceled (by decide) (by decide)
  have hnil : (Manager.Delete
      { api := failsOn isDeleteStackRequest requestCanceled, options := buildOptions [] }
      "x" {}).1 = none := by decide
  rw [hnil] at he
  cases he

/-- Claim C13, amended. With DryRun off: after a successful delete-stack
request, a wait error whose code is `ResourceNotReady` makes `Delete` return
nil; a wait error that is not a cancellation and has no such code is returned
wrapped with the stack name; a failure of the delete-stack request itself is
returned as the error "failed to delete stack, NAME: " wrapping it when it is
not a context cancellation, and is turned into nil when it is one. -/
theorem delete_errors (m : Manager) (hdry : m.options.DryRun = false) (stackName : String)
    (w : World) (err : GoError) :
    (m.api.respond w.calls (.DeleteStackRequest stackName) = none →
        m.api.respond (w.calls ++ [.DeleteStackRequest stackName, .observeEvents stackName])
          (.WaitUntilStackUpdateComplete stackName) = some err →
        (∀ message, err.asAws = some (errResourceNotReady, message) →
          m.Delete stackName w
            = (none, { calls := w.calls ++ [.DeleteStackRequest stackName,
                        .observeEvents stackName, .WaitUntilStackUpdateComplete stackName] }))
        ∧ (err.isCanceled = false →
            (∀ message, err.asAws ≠ some (errResourceNotReady, message)) →
            m.Delete stackName w
                = (some (.wrapped ("failed while waiting for delete to finish for stack, "
                      ++ stackName ++ ": ") err),
                   { calls := w.calls ++ [.DeleteStackRequest stackName,
                       .observeEvents stackName, .WaitUntilStackUpdateComplete stackName] })
              ∧ strings.Contains
                  (GoError.wrapped ("failed while waiting for delete to finish for stack, "
                    ++ stackName ++ ": ") err).Error stackName = true))
      ∧ (m.api.respond w.calls (.DeleteStackRequest stackName) = some err →
          (err.isCanceled = false →
            m.Delete stackName w
                = (some (.wrapped ("failed to delete stack, " ++ stackName ++ ": ") err),
                   { calls := w.calls ++ [.DeleteStackRequest stackName] })
              ∧ strings.Contains
                  (GoError.wrapped ("failed to delete stack, " ++ stackName ++ ": ") err).Error
                  stackName = true)
          ∧ (err.isCanceled = true →
              m.Delete stackName w
                = (none, { calls := w.calls ++ [.DeleteStackRequest stackName] }))) := by
  constructor
  · intro hreq hwait
    constructor
    · intro message hcode
      simp [Manager.Delete, Manager.deleteBody, hdry, ClientAPI.call, hreq, World.spawn, hwait,
        hcode, hideCanceled]
    · intro hcancel hother
      constructor
      · cases hcode : err.asAws with
        | none =>
          simp [Manager.Delete, Manager.deleteBody, hdry, ClientAPI.call, hreq, World.spawn,
            hwait, hcode, hideCanceled, GoError.isCanceled, hcancel]
        | some cm =>
          obtain ⟨code, message⟩ := cm
          have hne : ¬ code = errResourceNotReady := by
            intro hc
            exact hother message (by rw [hcode, hc])
          simp [Manager.Delete, Manager.deleteBody, hdry, ClientAPI.call, hreq, World.spawn,
            hwait, hcode, hne, hideCanceled, GoError.isCanceled, hcancel]
      · have e : (GoError.wrapped ("failed while waiting for delete to finish for stack, "
              ++ stackName ++ ": ") err).Error
            = "failed while waiting for delete to finish for stack, " ++ stackName
                ++ (": " ++ err.Error) := by
          simp only [GoError.Error, String.append_assoc]
        rw [e]
        exact strings_Contains_mid _ _ _
  · intro hreq
    constructor
    · intro hcancel
      constructor
      · simp [Manager.Delete, Manager.deleteBody, hdry, ClientAPI.call, hreq, hideCanceled,
          GoError.isCanceled, hcancel]
      · have e : (GoError.wrapped ("failed to delete stack, " ++ stackName ++ ": ") err).Error
            = "failed to delete stack, " ++ stackName ++ (": " ++ err.Error) := by
          simp only [GoError.Error, String.append_assoc]
        rw [e]
        exact strings_Contains_mid _ _ _
    · intro hcancel
      simp [Manager.Delete, Manager.deleteBody, hdry, ClientAPI.call, hreq, hideCanceled,
        GoError.isCanceled, hcancel]

/-- Witness of `delete_errors`: the wait call reports that the resource is not
ready, and `Delete` returns nil. -/
theorem delete_errors_witness :
    Manager.Delete
        { api := failsOn isWaitUntilStackUpdateComplete
            (.aws "ResourceNotReady" "failed waiting for successful resource state"),
          options := buildOptions [] }
        "x" {}
      = (none, { calls := [.DeleteStackRequest "x", .observeEvents "x",
                           .WaitUntilStackUpdateComplete "x"] }) :=
  ((delete_errors
    { api := failsOn isWaitUntilStackUpdateComplete
        (.aws "ResourceNotReady" "failed waiting for successful resource state"),
      options := buildOptions [] }
    (by decide) "x" {}
    (.aws "ResourceNotReady" "failed waiting for successful resource state")).1
    (by decide) (by decide)).1 "failed waiting for successful resource state" (by decide)

/-! ## Upsert -/

/-- Claim C14. `Upsert` routes on the deployed template. When the fetch fails with
a `ValidationError` whose message contains "does not exist", its result and its
effect are those of one `Create` made after the fetch. When the fetch succeeds
and both templates parse, equal parsed templates give nil with no call after
the fetch, and different ones give the result and the effect of one `Update`
made after the fetch. -/
theorem upsert_routes {τ : Type} [DecidableEq τ] (m : Manager)
    (ParseYAML : String → Except GoError τ) (stack : Stack) (w : World) :
    (∀ err message, m.api.GetTemplate w.calls stack.Name = .error err →
        err.asAws = some (errValidationError, message) →
        strings.Contains message "does not exist" = true →
        m.Upsert ParseYAML stack w
          = m.Create stack { calls := w.calls ++ [.GetTemplateRequest stack.Name] })
      ∧ (∀ body got want, m.api.GetTemplate w.calls stack.Name = .ok body →
          ParseYAML body = .ok got →
          ParseYAML stack.TemplateBody = .ok want →
          (got = want →
            m.Upsert ParseYAML stack w
              = (none, { calls := w.calls ++ [.GetTemplateRequest stack.Name] }))
          ∧ (got ≠ want →
              m.Upsert ParseYAML stack w
                = m.Update stack { calls := w.calls ++ [.GetTemplateRequest stack.Name] })) := by
  constructor
  · intro err message hget hcode hmsg
    simp [Manager.Upsert, ClientAPI.getTemplate, hget, hcode, hmsg]
  · intro body got want hget hgot hwant
    constructor
    · intro heq
      simp [Manager.Upsert, ClientAPI.getTemplate, hget, hgot, hwant, heq]
    · intro hne
      simp [Manager.Upsert, ClientAPI.getTemplate, hget, hgot, hwant, hne]

/-- Witness of `upsert_routes`: no stack exists yet and the stack is created; the
deployed template differs by blanks only and nothing is done; the deployed
template differs and the stack is updated. -/
theorem upsert_routes_witness :
    (Manager.Upsert { api := noStackYet, options := buildOptions [] } parseNoBlanks
        { Name := "a", TemplateBody := "Resources: x" } {}).2.calls
        = [.GetTemplateRequest "a",
           .CreateStackRequest
             { Capabilities := [], Parameters := [], StackName := "a", Tags := [],
               TemplateBody := "Resources: x" },
           .observeEvents "a", .WaitUntilStackCreateComplete "a"]
      ∧ Manager.Upsert { api := servesTemplate "Resources:x", options := buildOptions [] }
          parseNoBlanks { Name := "a", TemplateBody := "Resources: x" } {}
        = (none, { calls := [.GetTemplateRequest "a"] })
      ∧ (Manager.Upsert { api := servesTemplate "Resources: y", options := buildOptions [] }
          parseNoBlanks { Name := "a", TemplateBody := "Resources: x" } {}).2.calls
        = [.GetTemplateRequest "a",
           .UpdateStackRequest
             { Capabilities := [], Parameters := [], StackName := "a", Tags := [],
               TemplateBody := "Resources: x" },
           .observeEvents "a", .WaitUntilStackUpdateComplete "a"] :=
  have h1 := (upsert_routes { api := noStackYet, options := buildOptions [] } parseNoBlanks
    { Name := "a", TemplateBody := "Resources: x" } {}).1
    (.aws "ValidationError" "Stack with id a does not exist") "Stack with id a does not exist"
    (by simp only [noStackYet]; congr 2) (by decide) (by decide)
  have h2 := ((upsert_routes { api := servesTemplate "Resources:x", options := buildOptions [] }
    parseNoBlanks { Name := "a", TemplateBody := "Resources: x" } {}).2
    "Resources:x" "Resources:x".toList "Resources:x".toList rfl
    (congrArg Except.ok (by decide)) (congrArg Except.ok (by decide))).1 rfl
  have h3 := ((upsert_routes { api := servesTemplate "Resources: y", options := buildOptions [] }
    parseNoBlanks { Name := "a", TemplateBody := "Resources: x" } {}).2
    "Resources: y" "Resources:y".toList "Resources:x".toList rfl
    (congrArg Except.ok (by decide)) (congrArg Except.ok (by decide))).2
    (by decide)
  ⟨by rw [h1]; decide, h2, by rw [h3]; decide⟩

/-! ## Cancellation -/

/-- Claim C15 as stated is false: the create request returns a context
cancellation before any observer of the operation exists, so the cancellation
is the caller's, and `Create` returns nil, not a context-cancelled error. -/
theorem cancellation_origin_counterexample :
    ¬ (∀ (m : Manager) (stack : Stack) (w : World) (err : GoError),
        m.options.DryRun = false →
        err.isCanceled = true →
        m.api.respond w.calls (.CreateStackRequest (m.createStackInput stack)) = some err →
        ∃ e, (m.Create stack w).1 = some e ∧ e.isCanceled = true) := by
  intro h
  obtain ⟨e, he, _⟩ := h
    { api := failsOn isCreateStackRequest requestCanceled, options := buildOptions [] }
    { Name := "a" } {} requestCanceled (by decide) (by decide) (by decide)
  have hnil : (Manager.Create
      { api := failsOn isCreateStackRequest requestCanceled, options := buildOptions [] }
      { Name := "a" } {}).1 = none := by decide
  rw [hnil] at he
  cases he

/-- Claim C15, amended. `Create`, `Update` and `Delete` do not distinguish the
origin of a cancellation: they never return an error that is a context
cancellation, and with DryRun off a cancellation with which the request itself
returns, when no observer of the operation has been started, is turned into
nil like any other. -/
theorem cancellation_hidden (m : Manager) (stack : Stack) (stackName : String) (w : World) :
    (∀ e, (m.Create stack w).1 = some e → e.isCanceled = false)
      ∧ (∀ e, (m.Update stack w).1 = some e → e.isCanceled = false)
      ∧ (∀ e, (m.Delete stackName w).1 = some e → e.isCanceled = false)
      ∧ (m.options.DryRun = false → ∀ err, err.isCanceled = true →
          (m.api.respond w.calls (.CreateStackRequest (m.createStackInput stack)) = some err →
            m.Create stack w
              = (none, { calls := w.calls
                  ++ [.CreateStackRequest (m.createStackInput stack)] }))
          ∧ (m.api.respond w.calls (.UpdateStackRequest (m.updateStackInput stack)) = some err →
              m.Update stack w
                = (none, { calls := w.calls
                    ++ [.UpdateStackRequest (m.updateStackInput stack)] }))
          ∧ (m.api.respond w.calls (.DeleteStackRequest stackName) = some err →
              m.Delete stackName w
                = (none, { calls := w.calls ++ [.DeleteStackRequest stackName] }))) := by
  refine ⟨?_, ?_, ?_, ?_⟩
  · intro e he
    exact hideCanceled_eq_some _ e he
  · intro e he
    exact hideCanceled_eq_some _ e he
  · intro e he
    exact hideCanceled_eq_some _ e he
  · intro hdry err hcancel
    refine ⟨?_, ?_, ?_⟩
    · intro hreq
      simp only [Manager.createStackInput] at hreq
      simp [Manager.Create, Manager.createBody, hdry, ClientAPI.call, hreq, hideCanceled,
        GoError.isCanceled, hcancel, Manager.createStackInput]
    · intro hreq
      simp only [Manager.updateStackInput] at hreq
      cases hcode : err.asAws with
      | none =>
        simp [Manager.Update, Manager.updateBody, hdry, ClientAPI.call, hreq, hcode,
          hideCanceled, GoError.isCanceled, hcancel, Manager.updateStackInput]
      | some cm =>
        obtain ⟨code, message⟩ := cm
        by_cases hnoop : (code = errValidationError
            ∧ strings.Contains message "No updates are to be performed." = true)
        · simp [Manager.Update, Manager.updateBody, hdry, ClientAPI.call, hreq, hcode,
            hideCanceled, hnoop.1, hnoop.2, Manager.updateStackInput]
        · simp [Manager.Update, Manager.updateBody, hdry, ClientAPI.call, hreq, hcode,
            hideCanceled, GoError.isCanceled, hcancel, hnoop, Manager.updateStackInput]
    · intro hreq
      simp [Manager.Delete, Manager.deleteBody, hdry, ClientAPI.call, hreq, hideCanceled,
        GoError.isCanceled, hcancel]

/-! ## The wait call of Delete -/

/-- Claim C16, the code at a failing input: with DryRun off and every remote call
succeeding, `Delete` of the stack `x` sends the delete request, starts the
observer and then waits with `WaitUntilStackUpdateComplete`; the call
`WaitUntilStackDeleteComplete` is not made. -/
theorem delete_waits_for_update_complete :
    Manager.Delete { api := alwaysNil, options := buildOptions [] } "x" {}
        = (none, { calls := [.DeleteStackRequest "x", .observeEvents "x",
                             .WaitUntilStackUpdateComplete "x"] })
      ∧ ApiCall.WaitUntilStackDeleteComplete "x"
          ∉ (Manager.Delete { api := alwaysNil, options := buildOptions [] } "x" {}).2.calls := by
  decide

/-! ## List and Exports -/

theorem foldl_append_filter {α : Type} (p : α → Bool) (l : List α) (init : List α) :
    l.foldl (fun acc x => if p x then acc ++ [x] else acc) init = init ++ l.filter p := by
  induction l generalizing init with
  | nil => simp
  | cons x xs ih =>
    rw [List.foldl_cons, ih]
    cases hp : p x <;> simp [hp]

theorem hasPrefix_singleton (got p : String) : hasPrefix got [p] = strings.HasPrefix got p := by
  simp [hasPrefix, hasPrefixLoop]

theorem listLoop_serves (m : Manager) (pages : List ListStacksOutput) :
    ∀ (fuel : Nat) (token : Option String) (acc : List StackSummary) (w : World),
      servesStackPages m.api w.calls token pages → pages.length ≤ fuel →
      m.listLoop fuel token acc w
        = some ((acc ++ (pages.map (fun p => p.StackSummaries)).flatten.filter
                    (fun s => strings.HasPrefix s.StackName m.options.Prefix), none),
                { calls := w.calls ++ (.ListStacksRequest token
                    :: pages.dropLast.map (fun p => .ListStacksRequest p.NextToken)) }) := by
  induction pages with
  | nil => intro fuel token acc w h; exact absurd h (by simp [servesStackPages])
  | cons p rest ih =>
    intro fuel token acc w h hfuel
    cases fuel with
    | zero => simp at hfuel
    | succ fuel =>
      have hfold : ∀ (l init : List StackSummary),
          l.foldl (fun summaries s =>
            if hasPrefix s.StackName [m.options.Prefix] then summaries ++ [s] else summaries) init
          = init ++ l.filter (fun s => strings.HasPrefix s.StackName m.options.Prefix) := by
        intro l init
        have := foldl_append_filter
          (fun s : StackSummary => strings.HasPrefix s.StackName m.options.Prefix) l init
        simpa [hasPrefix_singleton] using this
      cases rest with
      | nil =>
        obtain ⟨hp, htok⟩ := h
        simp [Manager.listLoop, ClientAPI.listStacks, hp, htok, hfold]
      | cons q rest =>
        obtain ⟨hp, htok, hrest⟩ := h
        obtain ⟨t, ht⟩ := Option.ne_none_iff_exists'.1 htok
        have hlen : (q :: rest).length ≤ fuel := by
          simp only [List.length_cons] at hfuel ⊢
          omega
        have := ih fuel p.NextToken
          (acc ++ p.StackSummaries.filter
            (fun s => strings.HasPrefix s.StackName m.options.Prefix))
          { calls := w.calls ++ [.ListStacksRequest token] } hrest hlen
        simp only [Manager.listLoop, ClientAPI.listStacks, hp, hfold, ht]
        rw [ht] at this
        rw [this]
        simp [ht]

/-- Claim C17. For every finite sequence of pages that the remote API serves, the
last being the first with a nil continuation token, and enough fuel, `List`
requests the first page with a nil token and each later page with the token
of the page before, makes no request after the last page, and returns nil as
error with exactly the summaries whose name starts with the configured prefix,
in page order and in-page order. -/
theorem list_paginates (m : Manager) (w : World) (pages : List ListStacksOutput) (fuel : Nat)
    (h : servesStackPages m.api w.calls none pages) (hfuel : pages.length ≤ fuel) :
    m.List fuel w
        = some (((pages.map (fun p => p.StackSummaries)).flatten.filter
                    (fun s => strings.HasPrefix s.StackName m.options.Prefix), none),
                { calls := w.calls ++ (.ListStacksRequest none
                    :: pages.dropLast.map (fun p => .ListStacksRequest p.NextToken)) })
      ∧ ∀ r, m.List fuel w = some r →
          ∀ s ∈ r.1.1, strings.HasPrefix s.StackName m.options.Prefix = true := by
  have heq := listLoop_serves m pages fuel none [] w h hfuel
  simp only [List.nil_append] at heq
  refine ⟨heq, ?_⟩
  intro r hr s hs
  have hl : m.List fuel w = m.listLoop fuel none [] w := rfl
  rw [hl, heq] at hr
  cases hr
  exact (List.mem_filter.1 hs).2

/-- Witness of `list_paginates`: two pages, the prefix `dev-`. -/
theorem list_paginates_witness :
    Manager.List
        { api := twoStackPages,
          options := { FormatName := defaultNameFormatter, Prefix := "dev-" } } 5 {}
      = some (([{ StackName := "dev-a" }, { StackName := "dev-c" }], none),
              { calls := [.ListStacksRequest none, .ListStacksRequest (some "t1")] }) :=
  (list_paginates
    { api := twoStackPages, options := { FormatName := defaultNameFormatter, Prefix := "dev-" } }
    {}
    [{ StackSummaries := [{ StackName := "dev-a" }, { StackName := "prod-b" }],
       NextToken := some "t1" },
     { StackSummaries := [{ StackName := "dev-c" }], NextToken := none }]
    5 ⟨rfl, by decide, rfl, rfl⟩ (by decide)).1.trans (by decide)

theorem exportsLoop_serves (m : Manager) (pages : List ListExportsOutput) :
    ∀ (fuel : Nat) (token : Option String) (acc : List Export) (w : World),
      servesExportPages m.api w.calls token pages → pages.length ≤ fuel →
      m.exportsLoop fuel token acc w
        = some ((acc ++ (pages.map (fun p => p.Exports)).flatten, none),
                { calls := w.calls ++ (.ListExportsRequest token
                    :: pages.dropLast.map (fun p => .ListExportsRequest p.NextToken)) }) := by
  induction pages with
  | nil => intro fuel token acc w h; exact absurd h (by simp [servesExportPages])
  | cons p rest ih =>
    intro fuel token acc w h hfuel
    cases fuel with
    | zero => simp at hfuel
    | succ fuel =>
      cases rest with
      | nil =>
        obtain ⟨hp, htok⟩ := h
        simp [Manager.exportsLoop, ClientAPI.listExports, hp, htok]
      | cons q rest =>
        obtain ⟨hp, htok, hrest⟩ := h
        obtain ⟨t, ht⟩ := Option.ne_none_iff_exists'.1 htok
        have hlen : (q :: rest).length ≤ fuel := by
          simp only [List.length_cons] at hfuel ⊢
          omega
        have := ih fuel p.NextToken (acc ++ p.Exports)
          { calls := w.calls ++ [.ListExportsRequest token] } hrest hlen
        simp only [Manager.exportsLoop, ClientAPI.listExports, hp, ht]
        rw [ht] at this
        rw [this]
        simp [ht]

theorem exportsLoop_fails (m : Manager) (err : GoError) (pages : List ListExportsOutput) :
    ∀ (fuel : Nat) (token : Option String) (acc : List Export) (w : World),
      failsAfterExportPages m.api w.calls token err pages → pages.length < fuel →
      m.exportsLoop fuel token acc w
        = some (([], some (.wrapped "unable to list cloudformation exports: " err)),
                { calls := w.calls ++ (.ListExportsRequest token
                    :: pages.map (fun p => .ListExportsRequest p.NextToken)) }) := by
  induction pages with
  | nil =>
    intro fuel token acc w h hfuel
    cases fuel with
    | zero => simp at hfuel
    | succ fuel =>
      have h' : m.api.ListExports w.calls token = .error err := h
      simp [Manager.exportsLoop, ClientAPI.listExports, h']
  | cons p rest ih =>
    intro fuel token acc w h hfuel
    cases fuel with
    | zero => simp at hfuel
    | succ fuel =>
      obtain ⟨hp, htok, hrest⟩ := h
      obtain ⟨t, ht⟩ := Option.ne_none_iff_exists'.1 htok
      have hlen : rest.length < fuel := by
        simp only [List.length_cons] at hfuel
        omega
      have := ih fuel p.NextToken (acc ++ p.Exports)
        { calls := w.calls ++ [.ListExportsRequest token] } hrest hlen
      simp only [Manager.exportsLoop, ClientAPI.listExports, hp, ht]
      rw [ht] at this
      rw [this]
      simp [ht]

/-- Claim C18. For every finite sequence of pages that the remote API serves, the
last being the first with a nil continuation token, and enough fuel, `Exports`
returns nil as error with the concatenation of the exports of all pages in
page order; when a page request fails after pages that all carry a token, it
returns no exports and the error "unable to list cloudformation exports: "
wrapping the failure, and makes no further request. -/
theorem exports_paginates (m : Manager) (w : World) (pages : List ListExportsOutput)
    (fuel : Nat) (err : GoError) :
    (servesExportPages m.api w.calls none pages → pages.length ≤ fuel →
        m.Exports fuel w
          = some (((pages.map (fun p => p.Exports)).flatten, none),
                  { calls := w.calls ++ (.ListExportsRequest none
                      :: pages.dropLast.map (fun p => .ListExportsRequest p.NextToken)) }))
      ∧ (failsAfterExportPages m.api w.calls none err pages → pages.length < fuel →
          m.Exports fuel w
              = some (([], some (.wrapped "unable to list cloudformation exports: " err)),
                      { calls := w.calls ++ (.ListExportsRequest none
                          :: pages.map (fun p => .ListExportsRequest p.NextToken)) })
            ∧ (GoError.wrapped "unable to list cloudformation exports: " err).wraps err
                = true) := by
  constructor
  · intro h hfuel
    have heq := exportsLoop_serves m pages fuel none [] w h hfuel
    simpa [Manager.Exports] using heq
  · intro h hfuel
    refine ⟨exportsLoop_fails m err pages fuel none [] w h hfuel, ?_⟩
    unfold GoError.wraps
    simp [wraps_self]

/-- Witness of `exports_paginates`: two pages served, and a failure on the second
page. -/
theorem exports_paginates_witness :
    Manager.Exports { api := twoExportPages, options := buildOptions [] } 5 {}
        = some (([{ ExportingStackId := none, Name := some "a", Value := some "1" },
                  { ExportingStackId := none, Name := some "b", Value := some "2" }], none),
                { calls := [.ListExportsRequest none, .ListExportsRequest (some "t1")] })
      ∧ Manager.Exports { api := secondExportPageFails, options := buildOptions [] } 5 {}
        = some (([], some (.wrapped "unable to list cloudformation exports: "
                    (.aws "Throttling" "Rate exceeded"))),
                { calls := [.ListExportsRequest none, .ListExportsRequest (some "t1")] }) :=
  ⟨((exports_paginates { api := twoExportPages, options := buildOptions [] } {}
      [{ Exports := [{ ExportingStackId := none, Name := some "a", Value := some "1" }],
         NextToken := some "t1" },
       { Exports := [{ ExportingStackId := none, Name := some "b", Value := some "2" }],
         NextToken := none }]
      5 (.other "unused")).1 ⟨rfl, by decide, rfl, rfl⟩ (by decide)).trans (by decide),
   (((exports_paginates { api := secondExportPageFails, options := buildOptions [] } {}
      [{ Exports := [{ ExportingStackId := none, Name := some "a", Value := some "1" }],
         NextToken := some "t1" }]
      5 (.aws "Throttling" "Rate exceeded")).2 ⟨rfl, by decide, rfl⟩ (by decide)).1).trans
      (by decide)⟩

/-! ## Event observer -/

theorem scanEvents_spec (now : Int) (page : List StackEvent) :
    ∀ (seen : List String) (events : List StackEvent),
      ∃ new : List StackEvent,
        (scanEvents now page seen events).2 = events ++ new
          ∧ (new.map (fun e => e.EventId)).Nodup
          ∧ (∀ e ∈ new, e.EventId ∉ seen)
          ∧ (∀ id, id ∈ (scanEvents now page seen events).1
              ↔ id ∈ seen ∨ id ∈ new.map (fun e => e.EventId)) := by
  induction page with
  | nil =>
    intro seen events
    exact ⟨[], by simp [scanEvents], by simp, by simp, by simp [scanEvents]⟩
  | cons event rest ih =>
    intro seen events
    unfold scanEvents
    by_cases hold : event.Timestamp < now
    · exact ⟨[], by simp [hold], by simp, by simp, by simp [hold]⟩
    · by_cases hseen : event.EventId ∈ seen
      · simp only [hold, hseen, if_true, if_false]
        exact ih seen events
      · simp only [hold, hseen, if_false]
        obtain ⟨new, h2, hnd, hfresh, hmem⟩ := ih (event.EventId :: seen) (events ++ [event])
        refine ⟨event :: new, ?_, ?_, ?_, ?_⟩
        · rw [h2]; simp
        · rw [List.map_cons, List.nodup_cons]
          refine ⟨?_, hnd⟩
          intro hin
          obtain ⟨e, he, hid⟩ := List.mem_map.1 hin
          exact hfresh e he (by rw [hid]; exact List.mem_cons_self _ _)
        · intro e he
          rcases List.mem_cons.1 he with rfl | he
          · exact hseen
          · intro hin
            exact hfresh e he (List.mem_cons_of_mem _ hin)
        · intro id
          rw [hmem id]
          simp only [List.mem_cons, List.map_cons]
          constructor
          · rintro ((h | h) | h)
            · exact Or.inr (Or.inl h)
            · exact Or.inl h
            · exact Or.inr (Or.inr h)
          · rintro (h | h | h)
            · exact Or.inl (Or.inr h)
            · exact Or.inl (Or.inl h)
            · exact Or.inr h

theorem printEvents_spec (stackName : String) (iter : Nat) (rev : List StackEvent) :
    ∀ printed : List Printed,
      ∃ shown : List StackEvent, shown.IsPrefix rev
        ∧ (printEvents stackName iter rev printed).1 = printed ++ shown.map lineOf := by
  induction rev with
  | nil => intro printed; exact ⟨[], List.nil_prefix, by simp [printEvents]⟩
  | cons event rest ih =>
    intro printed
    unfold printEvents
    by_cases hc : (decide (iter > 0) && isComplete stackName event) = true
    · refine ⟨[event], ?_, ?_⟩
      · exact ⟨rest, rfl⟩
      · simp [hc, lineOf]
    · obtain ⟨shown, hpre, heq⟩ :=
        ih (printed ++ [.event (colorOf event.ResourceStatus) event])
      refine ⟨event :: shown, ?_, ?_⟩
      · obtain ⟨t, ht⟩ := hpre
        exact ⟨t, by rw [← ht]; rfl⟩
      · simp only [hc, Bool.false_eq_true, if_false]
        rw [heq]
        simp [lineOf]

theorem printEvents_returns_iff (stackName : String) (iter : Nat) (rev : List StackEvent) :
    ∀ printed : List Printed,
      (printEvents stackName iter rev printed).2 = true
        ↔ (0 < iter ∧ ∃ e ∈ rev, isComplete stackName e = true) := by
  induction rev with
  | nil => intro printed; simp [printEvents]
  | cons event rest ih =>
    intro printed
    unfold printEvents
    by_cases hc : (decide (iter > 0) && isComplete stackName event) = true
    · simp only [hc, if_true]
      simp only [Bool.and_eq_true, decide_eq_true_eq] at hc
      exact ⟨fun _ => ⟨hc.1, event, List.mem_cons_self _ _, hc.2⟩, fun _ => trivial⟩
    · simp only [hc, Bool.false_eq_true, if_false]
      rw [ih]
      simp only [Bool.and_eq_true, decide_eq_true_eq, not_and] at hc
      constructor
      · rintro ⟨hpos, e, he, hce⟩
        exact ⟨hpos, e, List.mem_cons_of_mem _ he, hce⟩
      · rintro ⟨hpos, e, he, hce⟩
        refine ⟨hpos, e, ?_, hce⟩
        rcases List.mem_cons.1 he with rfl | he
        · exact absurd hce (hc hpos)
        · exact he

theorem printedIds_append (a b : List Printed) :
    printedIds (a ++ b) = printedIds a ++ printedIds b := by
  simp [printedIds, List.filterMap_append]

theorem printedIds_lineOf (events : List StackEvent) :
    printedIds (events.map lineOf) = events.map (fun e => e.EventId) := by
  induction events with
  | nil => rfl
  | cons e rest ih =>
    simp only [List.map_cons, printedIds, List.filterMap_cons, lineOf]
    simp only [printedIds] at ih
    rw [ih]

theorem containsResourceStatus_iff (event : StackEvent) (ss : List String) :
    containsResourceStatus event ss = true ↔ event.ResourceStatus ∈ ss := by
  induction ss with
  | nil => simp [containsResourceStatus]
  | cons s rest ih =>
    unfold containsResourceStatus
    by_cases h : s = event.ResourceStatus
    · simp [h]
    · have h' : ¬ event.ResourceStatus = s := fun e => h e.symm
      simp [h, h', ih]

theorem observeStep_returned (ctx : Context) (api : ClientAPI) (stackName : String)
    (now : Int) (st : Observer) (hpc : st.pc = .returned) :
    observeStep ctx api stackName now st = st := by
  simp [observeStep, hpc]

theorem observeStep_tick (ctx : Context) (api : ClientAPI) (stackName : String)
    (now : Int) (st : Observer) (hpc : st.pc = .tick) :
    (observeStep ctx api stackName now st).printed = st.printed
      ∧ (observeStep ctx api stackName now st).seen = st.seen := by
  simp only [observeStep, hpc]
  by_cases hctx : ctx st.selects = true
  · simp [hctx]
  · simp [hctx]

theorem observeStep_error (ctx : Context) (api : ClientAPI) (stackName : String)
    (now : Int) (st : Observer) (token : Option String) (err : GoError)
    (hpc : st.pc = .page token)
    (hresp : api.DescribeStackEvents st.world.calls stackName token = .error err) :
    (observeStep ctx api stackName now st).printed
        = (if isErrShown err then st.printed ++ [.failure stackName err] else st.printed)
      ∧ (observeStep ctx api stackName now st).seen = st.seen
      ∧ (observeStep ctx api stackName now st).pc
          = (if ctx st.selects then .returned else .tick) := by
  simp only [observeStep, hpc, ClientAPI.describeStackEvents, hresp]
  by_cases hctx : ctx st.selects = true
  · simp [hctx]
  · simp [hctx]

theorem observeStep_ok (ctx : Context) (api : ClientAPI) (stackName : String)
    (now : Int) (st : Observer) (token : Option String) (resp : DescribeStackEventsOutput)
    (hpc : st.pc = .page token)
    (hresp : api.DescribeStackEvents st.world.calls stackName token = .ok resp) :
    (observeStep ctx api stackName now st).printed
        = (printEvents stackName st.iter
            (scanEvents now resp.StackEvents st.seen []).2.reverse st.printed).1
      ∧ (observeStep ctx api stackName now st).seen
          = (scanEvents now resp.StackEvents st.seen []).1
      ∧ (observeStep ctx api stackName now st).pc
          = (if (printEvents stackName st.iter
                (scanEvents now resp.StackEvents st.seen []).2.reverse st.printed).2
             then .returned
             else match resp.NextToken with
               | none => .tick
               | some t => .page (some t)) := by
  simp only [observeStep, hpc, ClientAPI.describeStackEvents, hresp]
  by_cases hret : (printEvents stackName st.iter
      (scanEvents now resp.StackEvents st.seen []).2.reverse st.printed).2 = true
  · simp [hret]
  · cases htok : resp.NextToken with
    | none => simp [hret]
    | some t => simp [hret]

/-- What a step of the observer leaves in `seen` and `printed`: the identifiers
of the new events are added to `seen`, and the lines of the new events shown, a
leading part of them taken from the last, are added to `printed` after the
line of a failure if there is one. The new events have pairwise distinct
identifiers, none seen before. -/
theorem observeStep_page (ctx : Context) (api : ClientAPI) (stackName : String) (now : Int)
    (st : Observer) :
    ∃ (new shown : List StackEvent) (notes : List Printed),
      (new.map (fun e => e.EventId)).Nodup
        ∧ (∀ e ∈ new, e.EventId ∉ st.seen)
        ∧ shown.IsPrefix new.reverse
        ∧ printedIds notes = []
        ∧ (observeStep ctx api stackName now st).printed = st.printed ++ notes ++ shown.map lineOf
        ∧ (∀ id, id ∈ (observeStep ctx api stackName now st).seen
            ↔ id ∈ st.seen ∨ id ∈ new.map (fun e => e.EventId)) := by
  have hsame : ∀ notes : List Printed, printedIds notes = [] →
      (observeStep ctx api stackName now st).printed = st.printed ++ notes →
      (observeStep ctx api stackName now st).seen = st.seen →
      ∃ (new shown : List StackEvent) (notes : List Printed),
      (new.map (fun e => e.EventId)).Nodup
        ∧ (∀ e ∈ new, e.EventId ∉ st.seen)
        ∧ shown.IsPrefix new.reverse
        ∧ printedIds notes = []
        ∧ (observeStep ctx api stackName now st).printed = st.printed ++ notes ++ shown.map lineOf
        ∧ (∀ id, id ∈ (observeStep ctx api stackName now st).seen
            ↔ id ∈ st.seen ∨ id ∈ new.map (fun e => e.EventId)) := by
    intro notes hnotes hp hs
    refine ⟨[], [], notes, ?_, ?_, ?_, hnotes, ?_, ?_⟩
    · exact List.nodup_nil
    · intro e he; cases he
    · exact List.nil_prefix
    · rw [hp]; simp
    · intro id; rw [hs]; simp
  cases hpc : st.pc with
  | returned =>
    have h := observeStep_returned ctx api stackName now st hpc
    exact hsame [] rfl (by rw [h]; simp) (by rw [h])
  | tick =>
    have h := observeStep_tick ctx api stackName now st hpc
    exact hsame [] rfl (by rw [h.1]; simp) h.2
  | page token =>
    cases hresp : api.DescribeStackEvents st.world.calls stackName token with
    | error err =>
      have h := observeStep_error ctx api stackName now st token err hpc hresp
      by_cases hshown : isErrShown err = true
      · exact hsame [.failure stackName err] rfl (by rw [h.1]; simp [hshown]) h.2.1
      · exact hsame [] rfl (by rw [h.1]; simp [hshown]) h.2.1
    | ok resp =>
      have h := observeStep_ok ctx api stackName now st token resp hpc hresp
      obtain ⟨new, h2, hnd, hfresh, hmem⟩ := scanEvents_spec now resp.StackEvents st.seen []
      obtain ⟨shown, hpre, hprinted⟩ := printEvents_spec stackName st.iter
        (scanEvents now resp.StackEvents st.seen []).2.reverse st.printed
      simp only [List.nil_append] at h2
      rw [h2] at hpre
      refine ⟨new, shown, [], hnd, hfresh, hpre, rfl, ?_, ?_⟩
      · rw [h.1, hprinted]; simp
      · intro id; rw [h.2.1]; exact hmem id

theorem observeStep_inv (ctx : Context) (api : ClientAPI) (stackName : String) (now : Int)
    (st : Observer) (h : ObserverInv st) :
    ObserverInv (observeStep ctx api stackName now st) := by
  obtain ⟨new, shown, notes, hnd, hfresh, hpre, hnotes, hprinted, hseen⟩ :=
    observeStep_page ctx api stackName now st
  obtain ⟨hinv1, hinv2⟩ := h
  have hids : printedIds (observeStep ctx api stackName now st).printed
      = printedIds st.printed ++ shown.map (fun e => e.EventId) := by
    rw [hprinted, printedIds_append, printedIds_append, hnotes, List.append_nil,
      printedIds_lineOf]
  have hsub : ∀ e ∈ shown, e ∈ new := by
    intro e he
    exact List.mem_reverse.1 (hpre.subset he)
  constructor
  · rw [hids, List.nodup_append]
    refine ⟨hinv1, ?_, ?_⟩
    · have hsl : (shown.map (fun e => e.EventId)).Sublist
          (new.reverse.map (fun e => e.EventId)) := (hpre.sublist).map _
      refine hsl.nodup ?_
      rw [List.map_reverse]
      exact List.nodup_reverse.2 hnd
    · intro id hid1 hid2
      obtain ⟨e, he, rfl⟩ := List.mem_map.1 hid2
      exact hfresh e (hsub e he) (hinv2 _ hid1)
  · intro id hid
    rw [hids] at hid
    rw [hseen]
    rcases List.mem_append.1 hid with h1 | h1
    · exact Or.inl (hinv2 id h1)
    · obtain ⟨e, he, rfl⟩ := List.mem_map.1 h1
      exact Or.inr (List.mem_map.2 ⟨e, hsub e he, rfl⟩)

theorem observeRun_inv (ctx : Context) (api : ClientAPI) (stackName : String) (now : Int)
    (fuel : Nat) : ∀ st, ObserverInv st → ObserverInv (observeRun ctx api stackName now fuel st) := by
  induction fuel with
  | zero => intro st h; exact h
  | succ n ih =>
    intro st h
    exact ih _ (observeStep_inv ctx api stackName now st h)

theorem observeRun_seen_grows (ctx : Context) (api : ClientAPI) (stackName : String)
    (now : Int) (k : Nat) :
    ∀ (st : Observer) (id : String), id ∈ st.seen →
      id ∈ (observeRun ctx api stackName now k st).seen := by
  induction k with
  | zero => intro st id h; exact h
  | succ n ih =>
    intro st id h
    obtain ⟨new, shown, notes, _, _, _, _, _, hseen⟩ :=
      observeStep_page ctx api stackName now st
    exact ih _ id ((hseen id).2 (Or.inl h))

theorem observeRun_add (ctx : Context) (api : ClientAPI) (stackName : String) (now : Int)
    (n k : Nat) : ∀ st, observeRun ctx api stackName now (n + k) st
      = observeRun ctx api stackName now k (observeRun ctx api stackName now n st) := by
  induction n with
  | zero => intro st; simp [observeRun]
  | succ n ih =>
    intro st
    rw [Nat.succ_add]
    exact ih _

/-- Claim C19. Observer dedup: at every point of a run of `observeEvents` the
identifiers of the events printed are pairwise distinct and all recorded in
the seen-set; the seen-set only grows; a step prints no line for an event
whose identifier is already in the seen-set; and a feed that returns the same
event on three ticks yields exactly one printed line. -/
theorem observer_dedup (ctx : Context) (api : ClientAPI) (stackName : String) (start : Int)
    (fuel k : Nat) :
    (printedIds (observeEvents ctx api stackName start fuel).printed).Nodup
      ∧ (∀ id ∈ printedIds (observeEvents ctx api stackName start fuel).printed,
          id ∈ (observeEvents ctx api stackName start fuel).seen)
      ∧ (∀ id ∈ (observeEvents ctx api stackName start fuel).seen,
          id ∈ (observeEvents ctx api stackName start (fuel + k)).seen)
      ∧ (∀ (st : Observer) (now : Int) (id : String), id ∈ st.seen →
          (printedIds (observeStep ctx api stackName now st).printed).count id
            = (printedIds st.printed).count id)
      ∧ (observeEvents neverDone (feeds [createdEvent]) "s" 50 6).printed
          = [.event .Green createdEvent]
      ∧ (observeEvents neverDone (feeds [createdEvent]) "s" 50 6).iter = 3 := by
  have hinit : ObserverInv ({} : Observer) := by
    constructor
    · simp [printedIds]
    · intro id hid
      simp [printedIds] at hid
  have hinv := observeRun_inv ctx api stackName (start - 12 * 1000000000) fuel {} hinit
  refine ⟨hinv.1, hinv.2, ?_, ?_, by decide, by decide⟩
  · intro id hid
    unfold observeEvents
    rw [observeRun_add]
    exact observeRun_seen_grows ctx api stackName _ k _ id hid
  · intro st now id hid
    obtain ⟨new, shown, notes, _, hfresh, hpre, hnotes, hprinted, _⟩ :=
      observeStep_page ctx api stackName now st
    rw [hprinted, printedIds_append, printedIds_append, hnotes, List.append_nil,
      printedIds_lineOf, List.count_append]
    have hzero : (shown.map (fun e => e.EventId)).count id = 0 := by
      apply List.count_eq_zero.2
      intro hin
      obtain ⟨e, he, hid'⟩ := List.mem_map.1 hin
      have hnew : e ∈ new := List.mem_reverse.1 (hpre.subset he)
      exact hfresh e hnew (by rw [hid']; exact hid)
    rw [hzero, Nat.add_zero]

theorem observeRun_returned (ctx : Context) (api : ClientAPI) (stackName : String)
    (now : Int) (n : Nat) :
    ∀ st : Observer, st.pc = .returned → observeRun ctx api stackName now n st = st := by
  induction n with
  | zero => intro st _; rfl
  | succ n ih =>
    intro st h
    unfold observeRun
    rw [observeStep_returned ctx api stackName now st h]
    exact ih st h

theorem isComplete_iff (stackName : String) (e : StackEvent) :
    isComplete stackName e = true
      ↔ (aws.StringValue e.LogicalResourceId = stackName
          ∧ e.ResourceStatus ∈ completeResourceStatuses) := by
  unfold isComplete
  rw [Bool.and_eq_true, decide_eq_true_eq, containsResourceStatus_iff]

/-- Claim C20. Observer completion, at a turn of the loop over the pages on which
a page is served. An event completes the stack exactly when its logical
resource id is the stack name and its status is one of the six terminal
statuses. The observer returns at this turn exactly when the iteration is not
the first (`iter > 0`) and one of the events accumulated from the page, which
are the events it prints, completes the stack; so on iteration 0, or without
such an event, it does not return here. Once returned, the observer stays
returned. -/
theorem observer_completion (ctx : Context) (api : ClientAPI) (stackName : String)
    (now : Int) (st : Observer) (token : Option String) (resp : DescribeStackEventsOutput)
    (hpc : st.pc = .page token)
    (hresp : api.DescribeStackEvents st.world.calls stackName token = .ok resp) :
    (∀ e : StackEvent, isComplete stackName e = true
        ↔ (aws.StringValue e.LogicalResourceId = stackName
            ∧ e.ResourceStatus ∈ ["CREATE_COMPLETE", "CREATE_FAILED", "UPDATE_COMPLETE",
                "UPDATE_FAILED", "DELETE_COMPLETE", "DELETE_FAILED"]))
      ∧ ((observeStep ctx api stackName now st).pc = .returned
          ↔ (0 < st.iter
              ∧ ∃ e ∈ (scanEvents now resp.StackEvents st.seen []).2,
                  isComplete stackName e = true))
      ∧ ((observeStep ctx api stackName now st).pc = .returned →
          ∀ n, (observeRun ctx api stackName now n
                  (observeStep ctx api stackName now st)).pc = .returned) := by
  refine ⟨fun e => isComplete_iff stackName e, ?_, ?_⟩
  · have h := (observeStep_ok ctx api stackName now st token resp hpc hresp).2.2
    have hiff := printEvents_returns_iff stackName st.iter
      (scanEvents now resp.StackEvents st.seen []).2.reverse st.printed
    rw [h]
    by_cases hret : (printEvents stackName st.iter
        (scanEvents now resp.StackEvents st.seen []).2.reverse st.printed).2 = true
    · have := hiff.1 hret
      simp only [hret, if_true, true_iff]
      obtain ⟨hpos, e, he, hce⟩ := this
      exact ⟨hpos, e, List.mem_reverse.1 he, hce⟩
    · have hno : ¬ (0 < st.iter ∧ ∃ e ∈ (scanEvents now resp.StackEvents st.seen []).2,
          isComplete stackName e = true) := by
        rintro ⟨hpos, e, he, hce⟩
        exact hret (hiff.2 ⟨hpos, e, List.mem_reverse.2 he, hce⟩)
      simp only [hret, Bool.false_eq_true, if_false]
      constructor
      · intro hp
        cases htok : resp.NextToken with
        | none => rw [htok] at hp; cases hp
        | some t => rw [htok] at hp; cases hp
      · intro hp
        exact absurd hp hno
  · intro hret n
    rw [observeRun_returned ctx api stackName now n _ hret]
    exact hret

/-- Witness of `observer_completion`: the event that creates the stack `s` ends
the observer on iteration 1 and does not end it on iteration 0. -/
theorem observer_completion_witness :
    (observeStep neverDone (feeds [createdEvent]) "s" 0 { pc := .page none, iter := 1 }).pc
        = .returned
      ∧ (observeStep neverDone (feeds [createdEvent]) "s" 0 { pc := .page none, iter := 0 }).pc
        ≠ .returned :=
  ⟨(observer_completion neverDone (feeds [createdEvent]) "s" 0 { pc := .page none, iter := 1 }
      none { StackEvents := [createdEvent], NextToken := none } rfl rfl).2.1.2
      ⟨by decide, createdEvent, by decide, by decide⟩,
   fun h => absurd
      ((observer_completion neverDone (feeds [createdEvent]) "s" 0
        { pc := .page none, iter := 0 } none
        { StackEvents := [createdEvent], NextToken := none } rfl rfl).2.1.1 h).1
      (by decide)⟩

/-! ## Severity of an event -/

/-- Claim C23. The colour of an event is decided by substring match on its
status, in this order: red (error) when the status contains "FAILED" or
"DELETE"; otherwise yellow (warn) when it contains "UPDATE"; otherwise green
(info) when it contains "CREATE"; otherwise blue (neutral). So every status
ending in `_FAILED` and every status starting with `DELETE_` is red, and every
status has exactly one of the four colours. -/
theorem colorOf_classes (status : String) :
    (colorOf status = .Red
        ↔ (strings.Contains status "FAILED" = true ∨ strings.Contains status "DELETE" = true))
      ∧ (colorOf status = .Yellow
          ↔ (strings.Contains status "FAILED" = false ∧ strings.Contains status "DELETE" = false
              ∧ strings.Contains status "UPDATE" = true))
      ∧ (colorOf status = .Green
          ↔ (strings.Contains status "FAILED" = false ∧ strings.Contains status "DELETE" = false
              ∧ strings.Contains status "UPDATE" = false
              ∧ strings.Contains status "CREATE" = true))
      ∧ (colorOf status = .Blue
          ↔ (strings.Contains status "FAILED" = false ∧ strings.Contains status "DELETE" = false
              ∧ strings.Contains status "UPDATE" = false
              ∧ strings.Contains status "CREATE" = false))
      ∧ colorOf (status ++ "_FAILED") = .Red
      ∧ colorOf ("DELETE_" ++ status) = .Red
      ∧ colorOf "UPDATE_FAILED" = .Red
      ∧ colorOf "CREATE_FAILED" = .Red
      ∧ colorOf "UPDATE_COMPLETE" = .Yellow
      ∧ colorOf "CREATE_IN_PROGRESS" = .Green
      ∧ colorOf "REVIEW_IN_PROGRESS" = .Blue := by
  have hfailed : strings.Contains (status ++ "_FAILED") "FAILED" = true := by
    have e : status ++ "_FAILED" = (status ++ "_") ++ "FAILED" ++ "" := by
      have : "_FAILED" = "_" ++ "FAILED" := by decide
      rw [this]
      simp only [String.append_assoc, String.append_empty]
    rw [e]
    exact strings_Contains_mid _ _ _
  have hdelete : strings.Contains ("DELETE_" ++ status) "DELETE" = true := by
    have e : "DELETE_" ++ status = "" ++ "DELETE" ++ ("_" ++ status) := by
      have : "DELETE_" = "DELETE" ++ "_" := by decide
      rw [this]
      simp only [String.append_assoc, String.empty_append]
    rw [e]
    exact strings_Contains_mid _ _ _
  refine ⟨?_, ?_, ?_, ?_, ?_, ?_, by decide, by decide, by decide, by decide, by decide⟩
  · unfold colorOf
    cases h1 : strings.Contains status "FAILED" <;> cases h2 : strings.Contains status "DELETE" <;>
      cases h3 : strings.Contains status "UPDATE" <;>
      cases h4 : strings.Contains status "CREATE" <;> simp
  · unfold colorOf
    cases h1 : strings.Contains status "FAILED" <;> cases h2 : strings.Contains status "DELETE" <;>
      cases h3 : strings.Contains status "UPDATE" <;>
      cases h4 : strings.Contains status "CREATE" <;> simp
  · unfold colorOf
    cases h1 : strings.Contains status "FAILED" <;> cases h2 : strings.Contains status "DELETE" <;>
      cases h3 : strings.Contains status "UPDATE" <;>
      cases h4 : strings.Contains status "CREATE" <;> simp
  · unfold colorOf
    cases h1 : strings.Contains status "FAILED" <;> cases h2 : strings.Contains status "DELETE" <;>
      cases h3 : strings.Contains status "UPDATE" <;>
      cases h4 : strings.Contains status "CREATE" <;> simp
  · unfold colorOf
    simp [hfailed]
  · unfold colorOf
    simp [hdelete]

/-! ## No deletion of a desired stack -/

theorem deleteRequests_append (a b : List ApiCall) :
    deleteRequests (a ++ b) = deleteRequests a ++ deleteRequests b := by
  simp [deleteRequests, List.filterMap_append]

theorem deleteRequests_Create (m : Manager) (stack : Stack) (w : World) :
    deleteRequests (m.Create stack w).2.calls = deleteRequests w.calls := by
  by_cases hdry : m.options.DryRun = true
  · simp [Manager.Create, Manager.createBody, hdry]
  · cases h1 : m.api.respond w.calls (.CreateStackRequest (m.createStackInput stack)) with
    | some e =>
      simp only [Manager.createStackInput] at h1
      simp [Manager.Create, Manager.createBody, hdry, ClientAPI.call, h1,
        deleteRequests_append, deleteRequests]
    | none =>
      simp only [Manager.createStackInput] at h1
      cases h2 : m.api.respond
          (w.calls ++ [.CreateStackRequest (m.createStackInput stack), .observeEvents stack.Name])
          (.WaitUntilStackCreateComplete stack.Name) with
      | some e =>
        simp only [Manager.createStackInput] at h2
        simp [Manager.Create, Manager.createBody, hdry, ClientAPI.call, h1, World.spawn, h2,
          deleteRequests_append, deleteRequests]
      | none =>
        simp only [Manager.createStackInput] at h2
        simp [Manager.Create, Manager.createBody, hdry, ClientAPI.call, h1, World.spawn, h2,
          deleteRequests_append, deleteRequests]

theorem deleteRequests_Update (m : Manager) (stack : Stack) (w : World) :
    deleteRequests (m.Update stack w).2.calls = deleteRequests w.calls := by
  by_cases hdry : m.options.DryRun = true
  · simp [Manager.Update, Manager.updateBody, hdry]
  · cases h1 : m.api.respond w.calls (.UpdateStackRequest (m.updateStackInput stack)) with
    | some e =>
      simp only [Manager.updateStackInput] at h1
      cases hcode : e.asAws with
      | none =>
        simp [Manager.Update, Manager.updateBody, hdry, ClientAPI.call, h1, hcode,
          deleteRequests_append, deleteRequests]
      | some cm =>
        obtain ⟨code, message⟩ := cm
        by_cases hnoop : (code = errValidationError
            ∧ strings.Contains message "No updates are to be performed." = true)
        · simp [Manager.Update, Manager.updateBody, hdry, ClientAPI.call, h1, hcode,
            hnoop.1, hnoop.2, deleteRequests_append, deleteRequests]
        · simp [Manager.Update, Manager.updateBody, hdry, ClientAPI.call, h1, hcode, hnoop,
            deleteRequests_append, deleteRequests]
    | none =>
      simp only [Manager.updateStackInput] at h1
      cases h2 : m.api.respond
          (w.calls ++ [.UpdateStackRequest (m.updateStackInput stack), .observeEvents stack.Name])
          (.WaitUntilStackUpdateComplete stack.Name) with
      | some e =>
        simp only [Manager.updateStackInput] at h2
        simp [Manager.Update, Manager.updateBody, hdry, ClientAPI.call, h1, World.spawn, h2,
          deleteRequests_append, deleteRequests]
      | none =>
        simp only [Manager.updateStackInput] at h2
        simp [Manager.Update, Manager.updateBody, hdry, ClientAPI.call, h1, World.spawn, h2,
          deleteRequests_append, deleteRequests]

theorem deleteRequests_Delete (m : Manager) (stackName : String) (w : World) :
    ∀ n ∈ deleteRequests (m.Delete stackName w).2.calls,
      n ∈ deleteRequests w.calls ∨ n = stackName := by
  intro n
  by_cases hdry : m.options.DryRun = true
  · simp only [Manager.Delete, Manager.deleteBody, hdry, if_true]
    intro h; exact Or.inl h
  · cases h1 : m.api.respond w.calls (.DeleteStackRequest stackName) with
    | some e =>
      simp [Manager.Delete, Manager.deleteBody, hdry, ClientAPI.call, h1,
        deleteRequests_append, deleteRequests]
    | none =>
      cases h2 : m.api.respond
          (w.calls ++ [.DeleteStackRequest stackName, .observeEvents stackName])
          (.WaitUntilStackUpdateComplete stackName) with
      | some e =>
        cases hcode : e.asAws with
        | none =>
          simp [Manager.Delete, Manager.deleteBody, hdry, ClientAPI.call, h1, World.spawn, h2,
            hcode, deleteRequests_append, deleteRequests]
        | some cm =>
          obtain ⟨code, message⟩ := cm
          by_cases hrnr : code = errResourceNotReady
          · simp [Manager.Delete, Manager.deleteBody, hdry, ClientAPI.call, h1, World.spawn, h2,
              hcode, hrnr, deleteRequests_append, deleteRequests]
          · simp [Manager.Delete, Manager.deleteBody, hdry, ClientAPI.call, h1, World.spawn, h2,
              hcode, hrnr, deleteRequests_append, deleteRequests]
      | none =>
        simp [Manager.Delete, Manager.deleteBody, hdry, ClientAPI.call, h1, World.spawn, h2,
          deleteRequests_append, deleteRequests]

theorem deleteRequests_invokeUntilError (m : Manager) (ops : List Invocation) :
    ∀ (w : World), ∀ n ∈ deleteRequests (m.invokeUntilError ops w).2.calls,
      n ∈ deleteRequests w.calls ∨ Invocation.Delete n ∈ ops := by
  induction ops with
  | nil => intro w n h; exact Or.inl h
  | cons op rest ih =>
    intro w n h
    unfold Manager.invokeUntilError at h
    have hop : ∀ n ∈ deleteRequests (m.invoke op w).2.calls,
        n ∈ deleteRequests w.calls ∨ Invocation.Delete n = op := by
      intro n hn
      cases op with
      | Delete name =>
        rcases deleteRequests_Delete m name w n hn with h1 | h1
        · exact Or.inl h1
        · exact Or.inr (by rw [h1])
      | Create stack =>
        simp only [Manager.invoke, deleteRequests_Create] at hn
        exact Or.inl hn
      | Update stack =>
        simp only [Manager.invoke, deleteRequests_Update] at hn
        exact Or.inl hn
    rcases hinv : m.invoke op w with ⟨err, w1⟩
    rw [hinv] at h hop
    cases err with
    | some e =>
      rcases hop n h with h1 | h1
      · exact Or.inl h1
      · exact Or.inr (by rw [h1]; exact List.mem_cons_self _ _)
    | none =>
      rcases ih w1 n h with h1 | h1
      · rcases hop n h1 with h2 | h2
        · exact Or.inl h2
        · exact Or.inr (by rw [h2]; exact List.mem_cons_self _ _)
      · exact Or.inr (List.mem_cons_of_mem _ h1)

theorem delete_change_not_desired (O : List StackSummary) (D : List Stack) :
    ∀ c ∈ CalculateChanges O D, c.Operation = Delete → c.Stack.Name ∉ D.map (fun w => w.Name) := by
  intro c hc hop
  rw [CalculateChanges_eq] at hc
  rcases List.mem_append.1 hc with hc | hc
  · obtain ⟨w, _, rfl⟩ := List.mem_map.1 hc
    have := isDelete_upsertOf (exclude O deletedStatus) w
    simp [isDelete, hop] at this
  · obtain ⟨g, hg, rfl⟩ := List.mem_map.1 hc
    have := (List.mem_filter.1 hg).2
    simpa [deleteOf] using this

theorem upsert_change_desired (O : List StackSummary) (D : List Stack) :
    ∀ c ∈ CalculateChanges O D, (c.Operation = Insert ∨ c.Operation = Update) →
      c.Stack.Name ∈ D.map (fun w => w.Name) := by
  intro c hc hop
  rw [CalculateChanges_eq] at hc
  rcases List.mem_append.1 hc with hc | hc
  · obtain ⟨w, hw, rfl⟩ := List.mem_map.1 hc
    exact List.mem_map.2 ⟨w, hw, rfl⟩
  · obtain ⟨g, hg, rfl⟩ := List.mem_map.1 hc
    have := isUpsert_deleteOf g
    simp [isUpsert, hop] at this

/-- Claim C24. `CalculateChanges` never schedules the deletion of a desired
stack: no Delete change of `CalculateChanges O D` has the name of a stack of
D, and no name is both in a Delete change and in an Insert or Update change; so
`Apply` on that output invokes `Delete` on no desired stack name and sends no
delete-stack request for one. -/
theorem no_delete_of_desired (O : List StackSummary) (D : List Stack) (m : Manager)
    (w : World) :
    (∀ c ∈ CalculateChanges O D, c.Operation = Delete →
        c.Stack.Name ∉ D.map (fun w => w.Name))
      ∧ (∀ c ∈ CalculateChanges O D, ∀ c' ∈ CalculateChanges O D,
          c.Operation = Delete → (c'.Operation = Insert ∨ c'.Operation = Update) →
          c.Stack.Name ≠ c'.Stack.Name)
      ∧ (∀ n, Invocation.Delete n ∈ applyOrder (CalculateChanges O D) →
          n ∉ D.map (fun w => w.Name))
      ∧ (∀ n ∈ deleteRequests (m.Apply (CalculateChanges O D) w).2.calls,
          n ∈ deleteRequests w.calls ∨ n ∉ D.map (fun w => w.Name)) := by
  have hinv : ∀ n, Invocation.Delete n ∈ applyOrder (CalculateChanges O D) →
      n ∉ D.map (fun w => w.Name) := by
    intro n hn
    unfold applyOrder at hn
    rcases List.mem_append.1 hn with h | h
    · obtain ⟨c, hc, hcn⟩ := List.mem_map.1 h
      have hc' := List.mem_filter.1 (List.mem_reverse.1 hc)
      have hop : c.Operation = Delete := by simpa using hc'.2
      have := delete_change_not_desired O D c hc'.1 hop
      cases hcn
      exact this
    · obtain ⟨c, _, hcn⟩ := List.mem_filterMap.1 h
      by_cases hi : c.Operation = Insert
      · simp [hi] at hcn
      · by_cases hu : c.Operation = Update
        · have hne : ¬ (Update = Insert) := by decide
          simp [hu, hne] at hcn
        · simp [hi, hu] at hcn
  refine ⟨delete_change_not_desired O D, ?_, hinv, ?_⟩
  · intro c hc c' hc' hop hop' heq
    have h1 := delete_change_not_desired O D c hc hop
    have h2 := upsert_change_desired O D c' hc' hop'
    rw [heq] at h1
    exact h1 h2
  · intro n hn
    rw [Apply_eq_invokeUntilError] at hn
    rcases deleteRequests_invokeUntilError m _ w n hn with h | h
    · exact Or.inl h
    · exact Or.inr (hinv n h)

/-! ## The lower time bound of the observer -/

theorem scanEvents_eq (now : Int) (page : List StackEvent) :
    ∀ (seen : List String) (events : List StackEvent),
      scanEvents now page seen events
        = ((notYetSeen seen (leadingRun now page)).reverse.map (fun e => e.EventId) ++ seen,
           events ++ notYetSeen seen (leadingRun now page)) := by
  induction page with
  | nil => intro seen events; simp [scanEvents, leadingRun, notYetSeen]
  | cons e rest ih =>
    intro seen events
    unfold scanEvents
    by_cases hold : e.Timestamp < now
    · have hnot : ¬ now ≤ e.Timestamp := not_le.2 hold
      simp [hold, leadingRun, List.takeWhile_cons, hnot, notYetSeen]
    · have hle : now ≤ e.Timestamp := not_lt.1 hold
      have hrun : leadingRun now (e :: rest) = e :: leadingRun now rest := by
        simp [leadingRun, List.takeWhile_cons, hle]
      rw [hrun]
      by_cases hseen : e.EventId ∈ seen
      · simp only [hold, hseen, if_true, if_false, notYetSeen]
        exact ih seen events
      · simp only [hold, hseen, if_false, notYetSeen]
        rw [ih]
        simp

theorem leadingRun_stops (now : Int) (old : StackEvent) (hold : old.Timestamp < now)
    (pre post : List StackEvent) :
    leadingRun now (pre ++ old :: post) = leadingRun now pre := by
  induction pre with
  | nil =>
    have hnot : ¬ now ≤ old.Timestamp := not_le.2 hold
    simp [leadingRun, List.takeWhile_cons, hnot]
  | cons e rest ih =>
    unfold leadingRun at ih ⊢
    by_cases hle : now ≤ e.Timestamp
    · simp only [List.cons_append, List.takeWhile_cons, hle, decide_True, if_true]
      rw [ih]
    · simp [List.takeWhile_cons, hle]

theorem mem_notYetSeen (events : List StackEvent) :
    ∀ (seen : List String) (e : StackEvent), e ∈ notYetSeen seen events →
      e ∈ events ∧ e.EventId ∉ seen := by
  induction events with
  | nil => intro seen e h; simp [notYetSeen] at h
  | cons x rest ih =>
    intro seen e h
    unfold notYetSeen at h
    by_cases hx : x.EventId ∈ seen
    · simp only [hx, if_true] at h
      obtain ⟨h1, h2⟩ := ih seen e h
      exact ⟨List.mem_cons_of_mem _ h1, h2⟩
    · simp only [hx, if_false] at h
      rcases List.mem_cons.1 h with rfl | h
      · exact ⟨List.mem_cons_self _ _, hx⟩
      · obtain ⟨h1, h2⟩ := ih (x.EventId :: seen) e h
        exact ⟨List.mem_cons_of_mem _ h1, fun hin => h2 (List.mem_cons_of_mem _ hin)⟩

theorem mem_leadingRun (now : Int) (page : List StackEvent) (e : StackEvent)
    (h : e ∈ leadingRun now page) : e ∈ page ∧ now ≤ e.Timestamp := by
  unfold leadingRun at h
  refine ⟨List.takeWhile_subset _ h, ?_⟩
  have := List.mem_takeWhile_imp h
  simpa using this

/-- Claim C22. The lower time bound is twelve seconds before the start. The scan of
a page stops at the first event whose timestamp precedes the bound: what
follows such an event changes nothing. The events accumulated are the
not-yet-seen events of the longest leading run of the page whose timestamps
are all not before the bound, and the identifiers recorded are theirs; so
every event printed by the step and every identifier it records comes from
that run, with a timestamp not before the bound. -/
theorem observer_time_bound (ctx : Context) (api : ClientAPI) (stackName : String)
    (now : Int) (st : Observer) (token : Option String) (resp : DescribeStackEventsOutput)
    (hpc : st.pc = .page token)
    (hresp : api.DescribeStackEvents st.world.calls stackName token = .ok resp) :
    (∀ (start : Int) (fuel : Nat), observeEvents ctx api stackName start fuel
        = observeRun ctx api stackName (start - 12 * 1000000000) fuel {})
      ∧ (∀ (page : List StackEvent) (seen : List String),
          (scanEvents now page seen []).2 = notYetSeen seen (leadingRun now page)
            ∧ (scanEvents now page seen []).1
                = (notYetSeen seen (leadingRun now page)).reverse.map (fun e => e.EventId)
                    ++ seen)
      ∧ (∀ (pre post : List StackEvent) (old : StackEvent) (seen : List String),
          old.Timestamp < now →
          (∀ e ∈ pre, now ≤ e.Timestamp) →
          leadingRun now (pre ++ old :: post) = pre
            ∧ scanEvents now (pre ++ old :: post) seen [] = scanEvents now pre seen [])
      ∧ (∃ shown : List StackEvent,
          (observeStep ctx api stackName now st).printed = st.printed ++ shown.map lineOf
            ∧ ∀ e ∈ shown, e ∈ leadingRun now resp.StackEvents ∧ now ≤ e.Timestamp
                ∧ e.EventId ∉ st.seen)
      ∧ (∀ id ∈ (observeStep ctx api stackName now st).seen,
          id ∈ st.seen
            ∨ ∃ e ∈ leadingRun now resp.StackEvents, e.EventId = id ∧ now ≤ e.Timestamp) := by
  have hok := observeStep_ok ctx api stackName now st token resp hpc hresp
  have hscan := scanEvents_eq now resp.StackEvents st.seen []
  refine ⟨fun _ _ => rfl, ?_, ?_, ?_, ?_⟩
  · intro page seen
    rw [scanEvents_eq]
    exact ⟨by simp, rfl⟩
  · intro pre post old seen hold hpre
    have hrun := leadingRun_stops now old hold pre post
    have hall : leadingRun now pre = pre := by
      unfold leadingRun
      apply List.takeWhile_eq_self_iff.2
      intro e he
      simpa using hpre e he
    refine ⟨by rw [hrun, hall], ?_⟩
    rw [scanEvents_eq, scanEvents_eq, hrun]
  · obtain ⟨shown, hpre, hprinted⟩ := printEvents_spec stackName st.iter
      (scanEvents now resp.StackEvents st.seen []).2.reverse st.printed
    refine ⟨shown, by rw [hok.1, hprinted], ?_⟩
    intro e he
    have hmem : e ∈ (scanEvents now resp.StackEvents st.seen []).2 :=
      List.mem_reverse.1 (hpre.subset he)
    rw [hscan] at hmem
    simp only [List.nil_append] at hmem
    obtain ⟨h1, h2⟩ := mem_notYetSeen _ _ e hmem
    exact ⟨h1, (mem_leadingRun now _ e h1).2, h2⟩
  · intro id hid
    rw [hok.2.1, hscan] at hid
    simp only [List.mem_append, List.mem_map, List.mem_reverse] at hid
    rcases hid with ⟨e, he, rfl⟩ | h
    · obtain ⟨h1, _⟩ := mem_notYetSeen _ _ e he
      exact Or.inr ⟨e, h1, rfl, (mem_leadingRun now _ e h1).2⟩
    · exact Or.inl h

/-- Witness of `observer_time_bound`: the page holds a recent event, then an old
one, then another; only the first is printed and recorded. -/
theorem observer_time_bound_witness :
    (observeStep neverDone (feeds [recentEvent, oldEvent, lateEvent]) "s" 1000000000
        { pc := .page none }).printed = [lineOf recentEvent]
      ∧ (observeStep neverDone (feeds [recentEvent, oldEvent, lateEvent]) "s" 1000000000
        { pc := .page none }).seen = ["e1"] :=
  have h := (observer_time_bound neverDone (feeds [recentEvent, oldEvent, lateEvent]) "s"
    1000000000 { pc := .page none } none
    { StackEvents := [recentEvent, oldEvent, lateEvent], NextToken := none } rfl rfl).2.1
    [recentEvent, oldEvent, lateEvent] []
  ⟨by decide, by
    have h2 := h.2
    have e : (observeStep neverDone (feeds [recentEvent, oldEvent, lateEvent]) "s" 1000000000
        { pc := .page none }).seen
        = (scanEvents 1000000000 [recentEvent, oldEvent, lateEvent] [] []).1 := by decide
    rw [e, h2]
    decide⟩

/-! ## A terminal event on the first tick -/

theorem observeStep_returned_cause (ctx : Context) (api : ClientAPI) (stackName : String)
    (now : Int) (st : Observer)
    (h : (observeStep ctx api stackName now st).pc = .returned) :
    st.pc = .returned ∨ ctx st.selects = true
      ∨ (0 < st.iter ∧ ∃ token resp, st.pc = .page token
          ∧ api.DescribeStackEvents st.world.calls stackName token = .ok resp
          ∧ ∃ e ∈ (scanEvents now resp.StackEvents st.seen []).2,
              isComplete stackName e = true ∧ e.EventId ∉ st.seen) := by
  cases hpc : st.pc with
  | returned => exact Or.inl rfl
  | tick =>
    by_cases hctx : ctx st.selects = true
    · exact Or.inr (Or.inl hctx)
    · simp [observeStep, hpc, hctx] at h
  | page token =>
    cases hresp : api.DescribeStackEvents st.world.calls stackName token with
    | error err =>
      have hs := (observeStep_error ctx api stackName now st token err hpc hresp).2.2
      by_cases hctx : ctx st.selects = true
      · exact Or.inr (Or.inl hctx)
      · rw [hs] at h
        simp [hctx] at h
    | ok resp =>
      have hs := (observeStep_ok ctx api stackName now st token resp hpc hresp).2.2
      rw [hs] at h
      by_cases hret : (printEvents stackName st.iter
          (scanEvents now resp.StackEvents st.seen []).2.reverse st.printed).2 = true
      · obtain ⟨hpos, e, he, hce⟩ := (printEvents_returns_iff stackName st.iter _ _).1 hret
        have hmem := List.mem_reverse.1 he
        obtain ⟨new, h2, _, hfresh, _⟩ := scanEvents_spec now resp.StackEvents st.seen []
        have hnew : e ∈ new := by
          rw [h2] at hmem
          simpa using hmem
        exact Or.inr (Or.inr ⟨hpos, token, resp, rfl, hresp, e, hmem, hce, hfresh e hnew⟩)
      · simp only [hret, Bool.false_eq_true, if_false] at h
        cases htok : resp.NextToken with
        | none => rw [htok] at h; cases h
        | some t => rw [htok] at h; cases h

/-- Claim C25. A terminal event accumulated on iteration 0 does not make the
observer return at that turn; its identifier is in the seen-set from then on,
and an event whose identifier is in the seen-set is never accumulated again,
so it cannot complete the observer later. The observer returns only when the
context is cancelled at a `select` or when, on an iteration after the first, an
event not seen before completes the stack. -/
theorem first_tick_terminal_ignored (ctx : Context) (api : ClientAPI) (stackName : String)
    (now : Int) (st : Observer) (token : Option String) (resp : DescribeStackEventsOutput)
    (hpc : st.pc = .page token)
    (hresp : api.DescribeStackEvents st.world.calls stackName token = .ok resp)
    (h0 : st.iter = 0) :
    (observeStep ctx api stackName now st).pc ≠ .returned
      ∧ (∀ e ∈ (scanEvents now resp.StackEvents st.seen []).2, ∀ n,
          e.EventId ∈ (observeRun ctx api stackName now n
            (observeStep ctx api stackName now st)).seen)
      ∧ (∀ (later : Observer) (e : StackEvent), e.EventId ∈ later.seen →
          ∀ page, ∀ e' ∈ (scanEvents now page later.seen []).2, e'.EventId ≠ e.EventId)
      ∧ (∀ later : Observer, later.pc ≠ .returned →
          (observeStep ctx api stackName now later).pc = .returned →
          ctx later.selects = true
            ∨ (0 < later.iter ∧ ∃ token' resp', later.pc = .page token'
                ∧ api.DescribeStackEvents later.world.calls stackName token' = .ok resp'
                ∧ ∃ e' ∈ (scanEvents now resp'.StackEvents later.seen []).2,
                    isComplete stackName e' = true ∧ e'.EventId ∉ later.seen)) := by
  refine ⟨?_, ?_, ?_, ?_⟩
  · intro hret
    rcases observeStep_returned_cause ctx api stackName now st hret with h | h | h
    · rw [hpc] at h; cases h
    · have hs := (observeStep_ok ctx api stackName now st token resp hpc hresp).2.2
      rw [hs] at hret
      by_cases hp : (printEvents stackName st.iter
          (scanEvents now resp.StackEvents st.seen []).2.reverse st.printed).2 = true
      · have := ((printEvents_returns_iff stackName st.iter _ _).1 hp).1
        omega
      · simp only [hp, Bool.false_eq_true, if_false] at hret
        cases htok : resp.NextToken with
        | none => rw [htok] at hret; cases hret
        | some t => rw [htok] at hret; cases hret
    · omega
  · intro e he n
    apply observeRun_seen_grows
    rw [(observeStep_ok ctx api stackName now st token resp hpc hresp).2.1]
    obtain ⟨new, h2, _, _, hmem⟩ := scanEvents_spec now resp.StackEvents st.seen []
    rw [hmem]
    rw [h2] at he
    exact Or.inr (List.mem_map.2 ⟨e, by simpa using he, rfl⟩)
  · intro later e hseen page e' he' heq
    obtain ⟨new, h2, _, hfresh, _⟩ := scanEvents_spec now page later.seen []
    rw [h2] at he'
    have hnew : e' ∈ new := by simpa using he'
    exact hfresh e' hnew (by rw [heq]; exact hseen)
  · intro later hrun hret
    rcases observeStep_returned_cause ctx api stackName now later hret with h | h | h
    · exact absurd h hrun
    · exact Or.inl h
    · exact Or.inr h

/-- Witness of `first_tick_terminal_ignored`: the feed holds the event that
creates the stack `s` from the first tick on, the context is never cancelled,
and after thirty steps the observer still runs with one line printed. -/
theorem first_tick_terminal_ignored_witness :
    (observeStep neverDone (feeds [createdEvent]) "s" 0 { pc := .page none }).pc ≠ .returned
      ∧ (observeRun neverDone (feeds [createdEvent]) "s" 0 30 {}).pc ≠ .returned
      ∧ (observeRun neverDone (feeds [createdEvent]) "s" 0 30 {}).printed
          = [lineOf createdEvent] :=
  ⟨(first_tick_terminal_ignored neverDone (feeds [createdEvent]) "s" 0 { pc := .page none }
      none { StackEvents := [createdEvent], NextToken := none } rfl rfl rfl).1,
   by decide, by decide⟩

/-! ## Loaded stacks and the prefix -/

theorem strings_HasPrefix_append (pre rest : String) :
    strings.HasPrefix (pre ++ rest) pre = true := by
  unfold strings.HasPrefix
  rw [List.isPrefixOf_iff_prefix]
  exact ⟨rest.toList, by simp [String.toList, String.data_append]⟩

theorem TrimRight_dash_append (p : String) :
    strings.TrimRight (p ++ "-") "-" = strings.TrimRight p "-" := by
  unfold strings.TrimRight
  have e : (p ++ "-").toList = p.toList ++ ['-'] := by
    simp [String.toList, String.data_append]
  rw [e, List.reverse_append]
  simp

theorem TrimRight_dash_spec (p : String) :
    (∃ k, p = strings.TrimRight p "-" ++ String.mk (List.replicate k '-'))
      ∧ (strings.TrimRight p "-").toList.getLast? ≠ some '-' := by
  have hq : ∀ c : Char, ("-".toList.contains c) = decide (c = '-') := by
    intro c
    by_cases h : c = '-' <;> simp [h]
  constructor
  · refine ⟨(p.toList.reverse.takeWhile (fun c => "-".toList.contains c)).length, ?_⟩
    apply String.ext
    have hsplit := List.takeWhile_append_dropWhile (fun c => "-".toList.contains c)
      p.toList.reverse
    have hall : (p.toList.reverse.takeWhile (fun c => "-".toList.contains c)).reverse
        = List.replicate
            (p.toList.reverse.takeWhile (fun c => "-".toList.contains c)).length '-' := by
      rw [List.eq_replicate_iff]
      refine ⟨by simp, ?_⟩
      intro c hc
      have hc' := List.mem_takeWhile_imp (List.mem_reverse.1 hc)
      rw [hq] at hc'
      simpa using hc'
    have hrev : p.toList
        = (p.toList.reverse.dropWhile (fun c => "-".toList.contains c)).reverse
          ++ (p.toList.reverse.takeWhile (fun c => "-".toList.contains c)).reverse := by
      rw [← List.reverse_append, hsplit, List.reverse_reverse]
    simp only [strings.TrimRight, String.data_append]
    rw [← hall]
    exact hrev
  · simp only [strings.TrimRight, String.toList]
    rw [List.getLast?_reverse]
    intro h
    have := List.head?_dropWhile_not (fun c => ['-'].contains c) p.data.reverse
    rw [h] at this
    simp at this

/-- Claim C26. For a body that is read, `Load` returns no error and a stack whose
name is the prefix built from the options followed by the formatted base name
of the file without its extension, so `hasPrefix` holds of this name for the
prefix of a manager built from the same options; when the body cannot be read
`Load` returns an error. `WithPrefix p` sets the prefix to `p` without its
trailing `-` followed by one `-`, whatever the options before it, so
`WithPrefix p` and `WithPrefix (p ++ "-")` are the same option. -/
theorem load_visible (filename data : String) (opts : List OptionFn) (api : ClientAPI)
    (p : String) (o : Options) (err : GoError) :
    (Load filename (.ok data) opts).2 = none
      ∧ (Load filename (.ok data) opts).1.Name
          = (buildOptions opts).Prefix
              ++ (buildOptions opts).FormatName (makeStackName filename)
      ∧ hasPrefix (Load filename (.ok data) opts).1.Name [(New api opts).options.Prefix] = true
      ∧ (Load filename (.error err) opts).2 ≠ none
      ∧ (WithPrefix p o).Prefix = strings.TrimRight p "-" ++ "-"
      ∧ (buildOptions (opts ++ [WithPrefix p])).Prefix = strings.TrimRight p "-" ++ "-"
      ∧ (∃ k, p = strings.TrimRight p "-" ++ String.mk (List.replicate k '-'))
      ∧ (strings.TrimRight p "-").toList.getLast? ≠ some '-'
      ∧ WithPrefix (p ++ "-") = WithPrefix p
      ∧ makeStackName "testdata/a/network.template" = "network"
      ∧ (Load "testdata/a/network.template" (.ok "Resources: {}")
            [WithPrefix "testing"]).1.Name = "testing-network" := by
  refine ⟨rfl, rfl, ?_, ?_, rfl, ?_, (TrimRight_dash_spec p).1, (TrimRight_dash_spec p).2, ?_,
    by decide, by decide⟩
  · rw [hasPrefix_singleton]
    exact strings_HasPrefix_append _ _
  · simp [Load]
  · simp [buildOptions, List.foldl_append, WithPrefix]
  · unfold WithPrefix
    simp only [TrimRight_dash_append]

/-! ## Tags of the requests -/

theorem requestTags_spec (tags : TagSlice) (stackTags : List Tag)
    (hlen : tags.len ≤ tags.cells.length) :
    (requestTags tags stackTags).1.elems = tags.elems ++ stackTags
      ∧ (requestTags tags stackTags).2 = tags.cells := by
  have hl : (tags.cells.take tags.len).length = tags.len := by
    rw [List.length_take]; omega
  unfold requestTags TagSlice.append TagSlice.full TagSlice.elems
  simp only [hl]
  by_cases hfit : tags.len + stackTags.length ≤ tags.len
  · have hnil : stackTags = [] := by
      apply List.eq_nil_of_length_eq_zero
      omega
    subst hnil
    simp [hl]
  · simp only [hfit, if_false]
    constructor
    · have : (List.take tags.len tags.cells ++ stackTags).length
          = tags.len + stackTags.length := by
        rw [List.length_append, hl]
      simp only [List.take_take, Nat.min_self]
      rw [← this]
      exact List.take_length _
    · exact List.take_append_drop _ _

theorem Create_sends (m : Manager) (hdry : m.options.DryRun = false) (stack : Stack)
    (w : World) :
    ∃ tail, (m.Create stack w).2.calls
      = w.calls ++ ApiCall.CreateStackRequest (m.createStackInput stack) :: tail := by
  cases h1 : m.api.respond w.calls (.CreateStackRequest (m.createStackInput stack)) with
  | some e =>
    simp only [Manager.createStackInput] at h1
    exact ⟨[], by simp [Manager.Create, Manager.createBody, hdry, ClientAPI.call, h1,
      Manager.createStackInput]⟩
  | none =>
    simp only [Manager.createStackInput] at h1
    refine ⟨[.observeEvents stack.Name, .WaitUntilStackCreateComplete stack.Name], ?_⟩
    cases h2 : m.api.respond
        (w.calls ++ [.CreateStackRequest (m.createStackInput stack), .observeEvents stack.Name])
        (.WaitUntilStackCreateComplete stack.Name) with
    | some e =>
      simp only [Manager.createStackInput] at h2
      simp [Manager.Create, Manager.createBody, hdry, ClientAPI.call, h1, World.spawn, h2,
        Manager.createStackInput]
    | none =>
      simp only [Manager.createStackInput] at h2
      simp [Manager.Create, Manager.createBody, hdry, ClientAPI.call, h1, World.spawn, h2,
        Manager.createStackInput]

theorem Update_sends (m : Manager) (hdry : m.options.DryRun = false) (stack : Stack)
    (w : World) :
    ∃ tail, (m.Update stack w).2.calls
      = w.calls ++ ApiCall.UpdateStackRequest (m.updateStackInput stack) :: tail := by
  cases h1 : m.api.respond w.calls (.UpdateStackRequest (m.updateStackInput stack)) with
  | some e =>
    simp only [Manager.updateStackInput] at h1
    refine ⟨[], ?_⟩
    cases hcode : e.asAws with
    | none =>
      simp [Manager.Update, Manager.updateBody, hdry, ClientAPI.call, h1, hcode,
        Manager.updateStackInput]
    | some cm =>
      obtain ⟨code, message⟩ := cm
      by_cases hnoop : (code = errValidationError
          ∧ strings.Contains message "No updates are to be performed." = true)
      · simp [Manager.Update, Manager.updateBody, hdry, ClientAPI.call, h1, hcode,
          hnoop.1, hnoop.2, Manager.updateStackInput]
      · simp [Manager.Update, Manager.updateBody, hdry, ClientAPI.call, h1, hcode, hnoop,
          Manager.updateStackInput]
  | none =>
    simp only [Manager.updateStackInput] at h1
    refine ⟨[.observeEvents stack.Name, .WaitUntilStackUpdateComplete stack.Name], ?_⟩
    cases h2 : m.api.respond
        (w.calls ++ [.UpdateStackRequest (m.updateStackInput stack), .observeEvents stack.Name])
        (.WaitUntilStackUpdateComplete stack.Name) with
    | some e =>
      simp only [Manager.updateStackInput] at h2
      simp [Manager.Update, Manager.updateBody, hdry, ClientAPI.call, h1, World.spawn, h2,
        Manager.updateStackInput]
    | none =>
      simp only [Manager.updateStackInput] at h2
      simp [Manager.Update, Manager.updateBody, hdry, ClientAPI.call, h1, World.spawn, h2,
        Manager.updateStackInput]

/-- Claim C27. With DryRun off, the request that `Create` and `Update` send for a
stack carries the tags of the options followed by the tags of the stack. For
every slice that holds the tags of the options, whatever its spare capacity,
the expression `append(tags[0:len:len], stack.Tags...)` yields these tags and
leaves the cells of the slice of the options as they were; so the request of a
later stack carries the tags of the options followed by its own tags, and
nothing of the earlier stack. -/
theorem request_tags (m : Manager) (hdry : m.options.DryRun = false) (first later : Stack)
    (tags : TagSlice) (htags : tags.elems = m.options.Tags)
    (hlen : tags.len ≤ tags.cells.length) (w : World) :
    (m.createStackInput first).Tags = m.options.Tags ++ first.Tags
      ∧ (m.updateStackInput first).Tags = m.options.Tags ++ first.Tags
      ∧ (requestTags tags first.Tags).1.elems = (m.createStackInput first).Tags
      ∧ (requestTags tags first.Tags).2 = tags.cells
      ∧ (requestTags { tags with cells := (requestTags tags first.Tags).2 } later.Tags).1.elems
          = m.options.Tags ++ later.Tags
      ∧ (∃ tail, (m.Create first w).2.calls
          = w.calls ++ ApiCall.CreateStackRequest (m.createStackInput first) :: tail)
      ∧ (∃ tail, (m.Update first w).2.calls
          = w.calls ++ ApiCall.UpdateStackRequest (m.updateStackInput first) :: tail)
      ∧ (∃ tail, (m.Create later (m.Create first w).2).2.calls
          = (m.Create first w).2.calls
              ++ ApiCall.CreateStackRequest
                  { Capabilities := later.Capabilities, Parameters := later.Parameters,
                    StackName := later.Name, Tags := m.options.Tags ++ later.Tags,
                    TemplateBody := later.TemplateBody } :: tail) := by
  have h1 := requestTags_spec tags first.Tags hlen
  refine ⟨rfl, rfl, ?_, h1.2, ?_, Create_sends m hdry first w, Update_sends m hdry first w,
    Create_sends m hdry later _⟩
  · rw [h1.1, htags]; rfl
  · rw [h1.2]
    have h2 := requestTags_spec tags later.Tags hlen
    rw [← htags]
    exact h2.1

/-- Witness of `request_tags`: the slice of the options has spare capacity, and
two stacks are created one after the other. -/
theorem request_tags_witness :
    (requestTags { cells := [tagOf "env" "dev", tagOf "spare" "cell"], len := 1 }
        [tagOf "team" "a"]).1.elems = [tagOf "env" "dev", tagOf "team" "a"]
      ∧ (requestTags { cells := [tagOf "env" "dev", tagOf "spare" "cell"], len := 1 }
        [tagOf "team" "a"]).2 = [tagOf "env" "dev", tagOf "spare" "cell"]
      ∧ (Manager.Create (New alwaysNil [WithTags [tagOf "env" "dev"]])
          { Name := "b", Tags := [tagOf "team" "b"] }
          (Manager.Create (New alwaysNil [WithTags [tagOf "env" "dev"]])
            { Name := "a", Tags := [tagOf "team" "a"] } {}).2).2.calls
        = [.CreateStackRequest
             { Capabilities := [], Parameters := [], StackName := "a",
               Tags := [tagOf "env" "dev", tagOf "team" "a"], TemplateBody := "" },
           .observeEvents "a", .WaitUntilStackCreateComplete "a",
           .CreateStackRequest
             { Capabilities := [], Parameters := [], StackName := "b",
               Tags := [tagOf "env" "dev", tagOf "team" "b"], TemplateBody := "" },
           .observeEvents "b", .WaitUntilStackCreateComplete "b"] :=
  have h := request_tags (New alwaysNil [WithTags [tagOf "env" "dev"]]) (by decide)
    { Name := "a", Tags := [tagOf "team" "a"] } { Name := "b", Tags := [tagOf "team" "b"] }
    { cells := [tagOf "env" "dev", tagOf "spare" "cell"], len := 1 } (by decide) (by decide) {}
  ⟨h.2.2.1.trans (by decide), h.2.2.2.1, by decide⟩

/-! ## Docker images -/

/-- Claim C21, the code at a failing input. On the string of the test
`parseImage` succeeds and the image renders back to the string. On the same
string with `x` in place of the first dot `parseImage` succeeds as well, the
unescaped dot of `reImage` matching the `x`, and the image renders to the
string of the test, not to the input. -/
theorem parseImage_not_inverse :
    parseImage "123456789012.dkr.ecr.us-west-2.amazonaws.com/dd-server:0.abc123"
        = ({ AccountID := "123456789012", Region := "us-west-2",
             RepositoryName := "dd-server", Tag := "0.abc123" }, none)
      ∧ (parseImage "123456789012.dkr.ecr.us-west-2.amazonaws.com/dd-server:0.abc123").1.String
        = "123456789012.dkr.ecr.us-west-2.amazonaws.com/dd-server:0.abc123"
      ∧ parseImage "123456789012xdkr.ecr.us-west-2.amazonaws.com/dd-server:0.abc123"
        = ({ AccountID := "123456789012", Region := "us-west-2",
             RepositoryName := "dd-server", Tag := "0.abc123" }, none)
      ∧ (parseImage "123456789012xdkr.ecr.us-west-2.amazonaws.com/dd-server:0.abc123").1.String
        ≠ "123456789012xdkr.ecr.us-west-2.amazonaws.com/dd-server:0.abc123" := by
  decide

end Deploy
